import Mathlib

/-!
Shallow embedding of the govanityurls route resolver (breuHQ/govanityurls).

Sources embedded here:
- handler.go: `PathConfig`, `PathConfigSet`, `PathConfigSet.find`, `NewVanityHandler`
  (configured-path normalization, display/vcs inference, cache age handling, sorting);
- the errors file: error values and their messages.

Strings are modelled as lists of characters.  Go compares strings byte-wise over
their UTF-8 encoding, and byte-wise order of UTF-8 encodings coincides with
codepoint-wise lexicographic order, which is what the comparators below compute.
-/

/-- Model of a Go string: its sequence of characters. -/
abbrev Str := List Char

/-- Convert a Lean string literal into the model. -/
def str (s : String) : Str := s.data

/-- Go string comparison `a < b` (byte-wise lexicographic). -/
def strLt : Str → Str → Bool
  | [], [] => false
  | [], _ :: _ => true
  | _ :: _, [] => false
  | a :: as, b :: bs => if a < b then true else if b < a then false else strLt as bs

/-- Go string comparison `a <= b` (byte-wise lexicographic). -/
def strLe : Str → Str → Bool
  | [], _ => true
  | _ :: _, [] => false
  | a :: as, b :: bs => if a < b then true else if b < a then false else strLe as bs

/-- Go `strings.HasPrefix s p`: does `s` start with `p`. -/
def hasPref : Str → Str → Bool
  | _, [] => true
  | [], _ :: _ => false
  | a :: as, b :: bs => a == b && hasPref as bs

/-- Go `strings.HasSuffix s p`: does `s` end with `p`. -/
def hasSuf (s p : Str) : Bool := hasPref s.reverse p.reverse

/-- Go `strings.TrimPrefix s p`: `s` without the leading `p`, or `s` unchanged. -/
def trimPref (s p : Str) : Str := if hasPref s p then s.drop p.length else s

/-- Go `strings.TrimSuffix s p`: `s` without the trailing `p`, or `s` unchanged. -/
def trimSuf (s p : Str) : Str := if hasSuf s p then s.take (s.length - p.length) else s

/-- Go slice expression `s[k:]`; `none` models the run-time panic when `k > len(s)`. -/
def goSlice (s : Str) (k : Nat) : Option Str :=
  if k ≤ s.length then some (s.drop k) else none

/-- Decimal digit character. -/
def digitChar (d : Nat) : Char := Char.ofNat (48 + d)

/-- Helper for decimal rendering; the first argument is fuel (at least the number). -/
def ntoaAux : Nat → Nat → Str → Str
  | 0, _, acc => acc
  | _ + 1, 0, acc => acc
  | fuel + 1, n, acc => ntoaAux fuel (n / 10) (digitChar (n % 10) :: acc)

/-- Decimal rendering of a natural number, as produced by Go `fmt.Sprintf("%d", n)`. -/
def ntoa (n : Nat) : Str := if n = 0 then str "0" else ntoaAux n n []

/-- Decimal rendering of an integer, as produced by Go `fmt.Sprintf("%d", i)`. -/
def intToStr (i : Int) : Str := if i < 0 then '-' :: ntoa (-i).toNat else ntoa i.toNat

/-- handler.go `PathConfig`: one route entry of the table. -/
structure PathConfig where
  path : Str
  repo : Str
  display : Str
  vcs : Str
deriving DecidableEq, Repr

/-- handler.go `PathConfigSet`. -/
abbrev PathConfigSet := List PathConfig

/-- Default `PathConfig`, used for the guarded index accesses of `find`
(the guards mirroring the Go code ensure the default is never read). -/
def dflt : PathConfig := ⟨[], [], [], []⟩

/-- Go `sort.Search` loop body (binary search on the half-open range `[i, j)`):
`i, j := 0, n; for i < j { h := (i+j)/2; if !f(h) { i = h+1 } else { j = h } }; return i`.
The first argument is fuel; `j - i` shrinks by at least one per iteration, so any
fuel `≥ j - i` makes the fuel case unreachable (proved below). -/
def searchLoopF (f : Nat → Bool) : Nat → Nat → Nat → Nat
  | 0, i, _ => i
  | fuel + 1, i, j =>
    if i < j then
      if f ((i + j) / 2) then searchLoopF f fuel i ((i + j) / 2)
      else searchLoopF f fuel ((i + j) / 2 + 1) j
    else i

/-- Go `sort.Search n f`: the least `i < n` with `f i`, else `n`, for monotone `f`. -/
def Search (n : Nat) (f : Nat → Bool) : Nat := searchLoopF f n 0 n

/-- Slow-path loop of `PathConfigSet.find` (handler.go lines 167-190), with fuel.
State mirrors the Go locals: current index `k`, loop bound `stop` (the binary
search position), `bestMatchConfig`, `subpath`, `lenShortestSubpath`.  A `none`
result models a run-time failure (out-of-bounds index or exhausted fuel); `find`
supplies fuel `pset.length`, which suffices. -/
def slowScanF (pset : PathConfigSet) (path : Str) :
    Nat → Nat → Nat → Option PathConfig → Str → Nat → Option (Option PathConfig × Str)
  | 0, k, stop, best, sub, _ => if k < stop then none else some (best, sub)
  | fuel + 1, k, stop, best, sub, lenShort =>
    if k < stop then
      if k < pset.length then
        let ps := pset.getD k dflt
        if path.length ≤ ps.path.length then
          slowScanF pset path fuel (k + 1) stop best sub lenShort
        else
          let s := trimPref path ps.path
          if s.length < lenShort then
            slowScanF pset path fuel (k + 1) stop (some ps) s s.length
          else
            slowScanF pset path fuel (k + 1) stop best sub lenShort
      else none
    else some (best, sub)

/-- handler.go `PathConfigSet.find` (lines 148-193).  Returns `some (match?, subpath)`
on normal completion; `none` models a run-time panic (proved unreachable below). -/
def find (pset : PathConfigSet) (path : Str) : Option (Option PathConfig × Str) :=
  let i := Search pset.length (fun k => strLe path (pset.getD k dflt).path)
  if i < pset.length ∧ (pset.getD i dflt).path = path then
    some (some (pset.getD i dflt), [])
  else if 0 < i ∧ hasPref path ((pset.getD (i - 1) dflt).path ++ ['/']) = true then
    match goSlice path ((pset.getD (i - 1) dflt).path.length + 1) with
    | some sub => some (some (pset.getD (i - 1) dflt), sub)
    | none => none
  else
    slowScanF pset path pset.length 0 i none [] path.length

/-- Binary-search position computed at the top of `find` (handler.go lines 151-153). -/
def findIdx (pset : PathConfigSet) (q : Str) : Nat :=
  Search pset.length (fun k => strLe q (pset.getD k dflt).path)

/-- Table sorted ascending by path (non-strict). -/
abbrev sortedLe (pset : PathConfigSet) : Prop :=
  pset.Pairwise (fun a b => strLe a.path b.path = true)

/-- Table sorted strictly ascending by path. -/
abbrev sortedLt (pset : PathConfigSet) : Prop :=
  pset.Pairwise (fun a b => strLt a.path b.path = true)

/-- Pairwise-distinct paths. -/
abbrev distinctPaths (l : PathConfigSet) : Prop :=
  l.Pairwise (fun a b => a.path ≠ b.path)

/-- Index `j` of the table holds an entry the slow path of `find` can select:
a nonempty strict (hence shorter) leading piece of the query. -/
def goodAt (pset : PathConfigSet) (q : Str) (j : Nat) : Prop :=
  j < pset.length ∧ hasPref q (pset.getD j dflt).path = true ∧
    0 < (pset.getD j dflt).path.length ∧ (pset.getD j dflt).path.length < q.length

/-- Loop invariant of the slow path after scanning indices `[0, k)`. -/
def scanInv (pset : PathConfigSet) (q : Str) (k : Nat)
    (best : Option PathConfig) (sub : Str) (lenShort : Nat) : Prop :=
  (best = none ∧ sub = [] ∧ lenShort = q.length ∧ ∀ j, j < k → ¬ goodAt pset q j) ∨
  (∃ b jb, best = some b ∧ jb < k ∧ jb < pset.length ∧ pset.getD jb dflt = b ∧
    hasPref q b.path = true ∧ 0 < b.path.length ∧ b.path.length < q.length ∧
    sub = q.drop b.path.length ∧ lenShort = q.length - b.path.length ∧
    ∀ j, j < k → j < pset.length →
      hasPref q (pset.getD j dflt).path = true →
      (pset.getD j dflt).path.length < q.length →
      (pset.getD j dflt).path.length ≤ b.path.length)

/-- Modelled from the spec (reference side of the refinement claim): one step of the
"naive unbounded scan" selecting the longest configured path that is a strict
leading piece of the query. -/
def stepSel (q : Str) (best : Option PathConfig) (pc : PathConfig) : Option PathConfig :=
  if hasPref q pc.path = true ∧ pc.path ≠ q then
    match best with
    | none => some pc
    | some b => if b.path.length < pc.path.length then some pc else some b
  else best

/-- Modelled from the spec (reference side of the refinement claim): "a naive
unbounded scan over all entries that selects the exact match if present and
otherwise the longest configured path that is a strict prefix of the query,
returning no match when no such entry exists". -/
def naiveMatch (pset : PathConfigSet) (q : Str) : Option PathConfig :=
  match pset.find? (fun pc => pc.path == q) with
  | some pc => some pc
  | none => pset.foldl (stepSel q) none

/-- Insertion step used to model `sort.Sort` over a `PathConfigSet`. -/
def insertSorted (a : PathConfig) : PathConfigSet → PathConfigSet
  | [] => [a]
  | b :: l => if strLe a.path b.path then a :: b :: l else b :: insertSorted a l

/-- Model of handler.go line 246 `sort.Sort(handler.paths)` (Less compares `Path`),
as a comparison sort.  On pairwise-distinct paths every comparison sort produces
the same table (proved below), so the choice of sort is immaterial. -/
def sortPaths (l : PathConfigSet) : PathConfigSet := l.foldr insertSorted []

/-- One value of the `paths` map of the YAML configuration (struct `VanityPath`). -/
structure VanityPath where
  repo : Str
  display : Str
  vcs : Str
deriving DecidableEq, Repr

/-- Parsed YAML configuration (struct `VanityConfig`); the `paths` map is modelled
as an association list in some iteration order. -/
structure VanityConfig where
  host : Str
  cacheAge : Option Int
  paths : List (Str × VanityPath)
deriving DecidableEq, Repr

/-- Error values of the errors file, plus `InvalidVCSError`. -/
inductive VErr where
  | invalidConfig
  | cacheMaxAgeNegative
  | httpHostMissing
  | unableToRender
  | invalidVCS (path repo : Str)
deriving DecidableEq, Repr

/-- Error messages, from the errors file (`errors.New` / `InvalidVCSError.Error`). -/
def errMessage : VErr → Str
  | .invalidConfig => str "invalid config"
  | .cacheMaxAgeNegative => str "cache-max-age must be positive"
  | .httpHostMissing => str "host is required"
  | .unableToRender => str "error rendering HTTP response"
  | .invalidVCS p r => str "configuration for " ++ p ++ str ": cannot infer VCS from " ++ r

/-- handler.go `VanityHandler` (the template-rendering machinery is out of scope). -/
structure VanityHandler where
  host : Str
  paths : PathConfigSet
  cachectrl : Str
deriving DecidableEq, Repr

/-- Decidable equality of `Except` results, for evaluating ingestion on
concrete configurations. -/
instance {ε α : Type} [DecidableEq ε] [DecidableEq α] : DecidableEq (Except ε α) :=
  fun a b =>
  match a, b with
  | Except.error e₁, Except.error e₂ =>
    if h : e₁ = e₂ then isTrue (by rw [h]) else isFalse (fun hc => h (by injection hc))
  | Except.error _, Except.ok _ => isFalse (fun hc => Except.noConfusion hc)
  | Except.ok _, Except.error _ => isFalse (fun hc => Except.noConfusion hc)
  | Except.ok v₁, Except.ok v₂ =>
    if h : v₁ = v₂ then isTrue (by rw [h]) else isFalse (fun hc => h (by injection hc))

/-- Display-template inference of `NewVanityHandler` (handler.go lines 222-229). -/
def inferDisplay (e : VanityPath) : Str :=
  if e.display ≠ [] then e.display
  else if hasPref e.repo (str "https://github.com/") then
    e.repo ++ str " " ++ e.repo ++ str "/tree/master\x7b/dir\x7d " ++
      e.repo ++ str "/blob/master\x7b/dir\x7d/\x7bfile\x7d#L\x7bline\x7d"
  else if hasPref e.repo (str "https://bitbucket.org") then
    e.repo ++ str " " ++ e.repo ++ str "/src/default\x7b/dir\x7d " ++
      e.repo ++ str "/src/default\x7b/dir\x7d/\x7bfile\x7d#\x7bfile\x7d-\x7bline\x7d"
  else e.display

/-- Path-entry loop of `NewVanityHandler` (handler.go lines 214-244): normalization
by `strings.TrimSuffix(path, "/")`, display inference, VCS validation/inference. -/
def buildPaths : List (Str × VanityPath) → PathConfigSet → Except VErr PathConfigSet
  | [], acc => .ok acc
  | (path, e) :: rest, acc =>
    let pc : PathConfig :=
      { path := trimSuf path (str "/"), repo := e.repo, display := inferDisplay e,
        vcs := e.vcs }
    if e.vcs ≠ [] then
      if e.vcs = str "bzr" ∨ e.vcs = str "git" ∨ e.vcs = str "hg" ∨ e.vcs = str "svn" then
        buildPaths rest (acc ++ [pc])
      else .error (.invalidVCS path e.repo)
    else if hasPref e.repo (str "https://github.com/") then
      buildPaths rest (acc ++ [{ pc with vcs := str "git" }])
    else .error (.invalidVCS path e.repo)

/-- Tail of `NewVanityHandler` after the cache-age check: build the entries,
sort them, and assemble the handler with its cache-control string. -/
def mkHandler (parsed : VanityConfig) (cacheAge : Int) : Except VErr VanityHandler :=
  match buildPaths parsed.paths [] with
  | .error e => .error e
  | .ok pcs =>
    .ok { host := parsed.host, paths := sortPaths pcs,
          cachectrl := str "public, max-age=" ++ intToStr cacheAge }

/-- handler.go `NewVanityHandler` (lines 195-249).  The YAML-parsing step is
modelled by the `Option`: `none` is a document `yaml.Unmarshal` rejects. -/
def NewVanityHandler (cfg : Option VanityConfig) : Except VErr VanityHandler :=
  match cfg with
  | none => .error .invalidConfig
  | some parsed =>
    match parsed.cacheAge with
    | some a => if a < 0 then .error .cacheMaxAgeNegative else mkHandler parsed a
    | none => mkHandler parsed 86400

/-- Configuration entry that makes `NewVanityHandler` fail its VCS switch
(handler.go lines 231-241): a stated kind outside {bzr, git, hg, svn}, or an
empty kind with a repo that does not start with `https://github.com/`. -/
abbrev badEntry (e : VanityPath) : Prop :=
  (e.vcs ≠ [] ∧
    ¬ (e.vcs = str "bzr" ∨ e.vcs = str "git" ∨ e.vcs = str "hg" ∨ e.vcs = str "svn")) ∨
  (e.vcs = [] ∧ hasPref e.repo (str "https://github.com/") = false)

/-! Basic facts about the string model: list take/drop helpers, the order
computed by `strLt`/`strLe`, and the leading-piece test `hasPref`. -/

theorem take_len_append : ∀ p t : Str, (p ++ t).take p.length = p := by
  intro p t
  induction p with
  | nil => rfl
  | cons c ps ih => simp [ih]

theorem drop_len_append : ∀ p t : Str, (p ++ t).drop p.length = t := by
  intro p t
  induction p with
  | nil => rfl
  | cons c ps ih => simp [ih]

theorem strLt_irrefl : ∀ a : Str, strLt a a = false := by
  intro a
  induction a with
  | nil => rfl
  | cons c as ih => simp [strLt, lt_self_iff_false, ih]

theorem strLt_asymm : ∀ a b : Str, strLt a b = true → strLt b a = false := by
  intro a
  induction a with
  | nil =>
    intro b h
    cases b with
    | nil => simp [strLt] at h
    | cons d bs => rfl
  | cons c as ih =>
    intro b h
    cases b with
    | nil => simp [strLt] at h
    | cons d bs =>
      simp only [strLt] at h ⊢
      rcases lt_trichotomy c d with h1 | rfl | h1
      · simp [h1, lt_asymm h1]
      · simp only [lt_self_iff_false, if_false] at h ⊢
        exact ih bs h
      · simp [h1, lt_asymm h1] at h

theorem strLt_eq_of_not_lt : ∀ a b : Str, strLt a b = false → strLt b a = false → a = b := by
  intro a
  induction a with
  | nil =>
    intro b h1 h2
    cases b with
    | nil => rfl
    | cons d bs => simp [strLt] at h1
  | cons c as ih =>
    intro b h1 h2
    cases b with
    | nil => simp [strLt] at h2
    | cons d bs =>
      simp only [strLt] at h1 h2
      rcases lt_trichotomy c d with hcd | rfl | hcd
      · simp [hcd] at h1
      · simp only [lt_self_iff_false, if_false] at h1 h2
        rw [ih bs h1 h2]
      · simp [hcd] at h2

theorem strLt_trans : ∀ a b c : Str, strLt a b = true → strLt b c = true → strLt a c = true := by
  intro a
  induction a with
  | nil =>
    intro b c h1 h2
    cases b with
    | nil => simp [strLt] at h1
    | cons d bs =>
      cases c with
      | nil => simp [strLt] at h2
      | cons e cs => rfl
  | cons x as ih =>
    intro b c h1 h2
    cases b with
    | nil => simp [strLt] at h1
    | cons y bs =>
      cases c with
      | nil => simp [strLt] at h2
      | cons z cs =>
        simp only [strLt] at h1 h2 ⊢
        rcases lt_trichotomy x y with hxy | rfl | hxy
        · rcases lt_trichotomy y z with hyz | rfl | hyz
          · have hxz := lt_trans hxy hyz
            simp [hxz]
          · simp [hxy]
          · simp [hyz, lt_asymm hyz] at h2
        · rcases lt_trichotomy x z with hxz | rfl | hxz
          · simp [hxz]
          · simp only [lt_self_iff_false, if_false] at h1 h2 ⊢
            exact ih bs cs h1 h2
          · simp [hxz, lt_asymm hxz] at h2
        · simp [hxy, lt_asymm hxy] at h1

theorem strLe_eq_not_strLt : ∀ a b : Str, strLe a b = !strLt b a := by
  intro a
  induction a with
  | nil =>
    intro b
    cases b with
    | nil => rfl
    | cons d bs => rfl
  | cons c as ih =>
    intro b
    cases b with
    | nil => rfl
    | cons d bs =>
      simp only [strLe, strLt]
      rcases lt_trichotomy c d with h1 | rfl | h1
      · simp [h1, lt_asymm h1]
      · simp only [lt_self_iff_false, if_false]
        exact ih bs
      · simp [h1, lt_asymm h1]

theorem strLe_refl (a : Str) : strLe a a = true := by
  rw [strLe_eq_not_strLt, strLt_irrefl]
  rfl

theorem strLe_of_strLt {a b : Str} (h : strLt a b = true) : strLe a b = true := by
  rw [strLe_eq_not_strLt, strLt_asymm a b h]
  rfl

theorem not_strLe_of_strLt {a b : Str} (h : strLt a b = true) : strLe b a = false := by
  rw [strLe_eq_not_strLt, h]
  rfl

theorem strLt_of_not_strLe {a b : Str} (h : strLe a b = false) : strLt b a = true := by
  rw [strLe_eq_not_strLt] at h
  cases hba : strLt b a with
  | false => rw [hba] at h; simp at h
  | true => rfl

theorem strLe_antisymm {a b : Str} (h1 : strLe a b = true) (h2 : strLe b a = true) : a = b := by
  rw [strLe_eq_not_strLt] at h1 h2
  apply strLt_eq_of_not_lt
  · cases h : strLt a b with
    | false => rfl
    | true => rw [h] at h2; simp at h2
  · cases h : strLt b a with
    | false => rfl
    | true => rw [h] at h1; simp at h1

theorem strLt_of_strLe_ne {a b : Str} (h1 : strLe a b = true) (h2 : a ≠ b) : strLt a b = true := by
  cases h : strLt a b with
  | true => rfl
  | false =>
    rw [strLe_eq_not_strLt] at h1
    cases hba : strLt b a with
    | true => rw [hba] at h1; simp at h1
    | false => exact absurd (strLt_eq_of_not_lt a b h hba) h2

theorem strLe_trans {a b c : Str} (h1 : strLe a b = true) (h2 : strLe b c = true) :
    strLe a c = true := by
  rw [strLe_eq_not_strLt] at h1 h2 ⊢
  cases hca : strLt c a with
  | false => rfl
  | true =>
    exfalso
    cases hbc : strLt b c with
    | true =>
      have := strLt_trans b c a hbc hca
      rw [this] at h1
      simp at h1
    | false =>
      cases hcb : strLt c b with
      | true => rw [hcb] at h2; simp at h2
      | false =>
        have hbceq := strLt_eq_of_not_lt b c hbc hcb
        subst hbceq
        rw [hca] at h1
        simp at h1

theorem strLe_strLt_trans {a b c : Str} (h1 : strLe a b = true) (h2 : strLt b c = true) :
    strLt a c = true := by
  cases hab : strLt a b with
  | true => exact strLt_trans a b c hab h2
  | false =>
    rw [strLe_eq_not_strLt] at h1
    cases hba : strLt b a with
    | true => rw [hba] at h1; simp at h1
    | false =>
      have := strLt_eq_of_not_lt a b hab hba
      subst this
      exact h2

theorem hasPref_iff_exists : ∀ s p : Str, hasPref s p = true ↔ ∃ t, s = p ++ t := by
  intro s p
  induction p generalizing s with
  | nil =>
    simp only [hasPref, List.nil_append]
    exact ⟨fun _ => ⟨s, rfl⟩, fun _ => trivial⟩
  | cons c ps ih =>
    cases s with
    | nil =>
      simp only [hasPref, List.cons_append]
      constructor
      · intro h; simp at h
      · rintro ⟨t, ht⟩; simp at ht
    | cons a as =>
      simp only [hasPref, Bool.and_eq_true, beq_iff_eq, List.cons_append, List.cons.injEq, ih]
      constructor
      · rintro ⟨rfl, t, rfl⟩; exact ⟨t, rfl, rfl⟩
      · rintro ⟨t, rfl, rfl⟩; exact ⟨rfl, t, rfl⟩

theorem hasPref_append (p t : Str) : hasPref (p ++ t) p = true :=
  (hasPref_iff_exists (p ++ t) p).2 ⟨t, rfl⟩

theorem hasPref_self (s : Str) : hasPref s s = true := by
  have h := hasPref_append s []
  rwa [List.append_nil] at h

theorem eq_append_drop_of_hasPref {s p : Str} (h : hasPref s p = true) :
    s = p ++ s.drop p.length := by
  rcases (hasPref_iff_exists s p).1 h with ⟨t, rfl⟩
  rw [drop_len_append]

theorem length_le_of_hasPref {s p : Str} (h : hasPref s p = true) : p.length ≤ s.length := by
  rcases (hasPref_iff_exists s p).1 h with ⟨t, rfl⟩
  simp

theorem strLe_append_right : ∀ p t : Str, strLe p (p ++ t) = true := by
  intro p t
  induction p with
  | nil => rfl
  | cons c ps ih => simp [strLe, lt_self_iff_false, ih]

theorem strLe_of_hasPref {s p : Str} (h : hasPref s p = true) : strLe p s = true := by
  rcases (hasPref_iff_exists s p).1 h with ⟨t, rfl⟩
  exact strLe_append_right p t

theorem strLt_of_hasPref_ne {s p : Str} (h : hasPref s p = true) (hne : p ≠ s) :
    strLt p s = true :=
  strLt_of_strLe_ne (strLe_of_hasPref h) hne

theorem hasPref_of_append {s p u : Str} (h : hasPref s (p ++ u) = true) :
    hasPref s p = true := by
  rcases (hasPref_iff_exists s (p ++ u)).1 h with ⟨t, rfl⟩
  rw [List.append_assoc]
  exact hasPref_append p (u ++ t)

theorem hasPref_take (s : Str) : ∀ k, hasPref s (s.take k) = true := by
  induction s with
  | nil => intro k; cases k <;> rfl
  | cons a as ih =>
    intro k
    cases k with
    | zero => rfl
    | succ k => simp [hasPref, ih k]

theorem take_of_hasPref {s p : Str} (h : hasPref s p = true) : p = s.take p.length := by
  rcases (hasPref_iff_exists s p).1 h with ⟨t, rfl⟩
  rw [take_len_append]

theorem hasPref_mono_len {s p₁ p₂ : Str} (h1 : hasPref s p₁ = true)
    (h2 : hasPref s p₂ = true) (hlen : p₁.length ≤ p₂.length) : hasPref p₂ p₁ = true := by
  rcases (hasPref_iff_exists s p₂).1 h2 with ⟨t, rfl⟩
  have hp1 : p₁ = (p₂ ++ t).take p₁.length := take_of_hasPref h1
  have htk : (p₂ ++ t).take p₁.length = p₂.take p₁.length := by
    rw [List.take_append_eq_append_take]
    have : p₁.length - p₂.length = 0 := by omega
    rw [this]
    simp
  rw [hp1, htk]
  exact hasPref_take p₂ p₁.length

theorem eq_of_hasPref_of_len_eq {s p₁ p₂ : Str} (h1 : hasPref s p₁ = true)
    (h2 : hasPref s p₂ = true) (hlen : p₁.length = p₂.length) : p₁ = p₂ := by
  rw [take_of_hasPref h1, take_of_hasPref h2, hlen]

/-! Correctness of the embedded `sort.Search` loop. -/

theorem searchLoopF_bounds (f : Nat → Bool) :
    ∀ fuel i j, j - i ≤ fuel → i ≤ j →
      i ≤ searchLoopF f fuel i j ∧ searchLoopF f fuel i j ≤ j := by
  intro fuel
  induction fuel with
  | zero =>
    intro i j h1 h2
    simp only [searchLoopF]
    omega
  | succ fuel ih =>
    intro i j h1 h2
    simp only [searchLoopF]
    by_cases hij : i < j
    · rw [if_pos hij]
      cases hf : f ((i + j) / 2) with
      | true =>
        rw [if_pos rfl]
        have := ih i ((i + j) / 2) (by omega) (by omega)
        omega
      | false =>
        rw [if_neg (by simp)]
        have := ih ((i + j) / 2 + 1) j (by omega) (by omega)
        omega
    · rw [if_neg hij]
      omega

theorem searchLoopF_spec (f : Nat → Bool) (n : Nat)
    (hmono : ∀ a b, a ≤ b → b < n → f a = true → f b = true) :
    ∀ fuel i j, j - i ≤ fuel → i ≤ j → j ≤ n →
      (∀ k, k < i → f k = false) →
      (∀ k, j ≤ k → k < n → f k = true) →
      (∀ k, k < searchLoopF f fuel i j → f k = false) ∧
      (∀ k, searchLoopF f fuel i j ≤ k → k < n → f k = true) := by
  intro fuel
  induction fuel with
  | zero =>
    intro i j h1 h2 h3 hlo hhi
    simp only [searchLoopF]
    have hij : i = j := by omega
    subst hij
    exact ⟨hlo, hhi⟩
  | succ fuel ih =>
    intro i j h1 h2 h3 hlo hhi
    simp only [searchLoopF]
    by_cases hij : i < j
    · rw [if_pos hij]
      cases hf : f ((i + j) / 2) with
      | true =>
        rw [if_pos rfl]
        refine ih i ((i + j) / 2) (by omega) (by omega) (by omega) hlo ?_
        intro k hk1 hk2
        exact hmono ((i + j) / 2) k hk1 hk2 hf
      | false =>
        rw [if_neg (by simp)]
        refine ih ((i + j) / 2 + 1) j (by omega) (by omega) h3 ?_ hhi
        intro k hk
        by_cases hki : k < i
        · exact hlo k hki
        · cases hfk : f k with
          | false => rfl
          | true =>
            have := hmono k ((i + j) / 2) (by omega) (by omega) hfk
            rw [this] at hf
            cases hf
    · rw [if_neg hij]
      have hij' : i = j := by omega
      subst hij'
      exact ⟨hlo, hhi⟩

theorem Search_le (n : Nat) (f : Nat → Bool) : Search n f ≤ n :=
  (searchLoopF_bounds f n 0 n (by omega) (by omega)).2

theorem Search_spec (n : Nat) (f : Nat → Bool)
    (hmono : ∀ a b, a ≤ b → b < n → f a = true → f b = true) :
    (∀ k, k < Search n f → f k = false) ∧
    (∀ k, Search n f ≤ k → k < n → f k = true) :=
  searchLoopF_spec f n hmono n 0 n (by omega) (by omega) (le_refl n)
    (fun k hk => absurd hk (by omega)) (fun k h1 h2 => absurd h2 (by omega))

/-! Index access helpers for `List.getD` with the fixed default entry. -/

theorem getD_mem : ∀ (l : PathConfigSet) (k : Nat), k < l.length → l.getD k dflt ∈ l := by
  intro l
  induction l with
  | nil => intro k hk; simp at hk
  | cons a t ih =>
    intro k hk
    cases k with
    | zero => exact List.mem_cons_self a t
    | succ k =>
      simp only [List.getD_cons_succ]
      exact List.mem_cons_of_mem a (ih k (by simpa using hk))

theorem mem_getD : ∀ (l : PathConfigSet) (pc : PathConfig), pc ∈ l →
    ∃ k, k < l.length ∧ l.getD k dflt = pc := by
  intro l
  induction l with
  | nil => intro pc h; simp at h
  | cons a t ih =>
    intro pc h
    rcases List.mem_cons.1 h with rfl | h
    · exact ⟨0, by simp, rfl⟩
    · rcases ih pc h with ⟨k, hk, hget⟩
      exact ⟨k + 1, by simpa using hk, hget⟩

theorem pairwise_getD {R : PathConfig → PathConfig → Prop} :
    ∀ (l : PathConfigSet), l.Pairwise R → ∀ j k, j < k → k < l.length →
      R (l.getD j dflt) (l.getD k dflt) := by
  intro l
  induction l with
  | nil => intro _ j k _ hk; simp at hk
  | cons a t ih =>
    intro hp j k hjk hk
    rcases List.pairwise_cons.1 hp with ⟨ha, ht⟩
    cases j with
    | zero =>
      cases k with
      | zero => omega
      | succ k =>
        simp only [List.getD_cons_zero, List.getD_cons_succ]
        exact ha _ (getD_mem t k (by simpa using hk))
    | succ j =>
      cases k with
      | zero => omega
      | succ k =>
        simp only [List.getD_cons_succ]
        exact ih ht j k (by omega) (by simpa using hk)

/-! Invariant of the slow-path scan of `find`. -/

theorem scanInv_le_lenShort {pset : PathConfigSet} {q : Str} {k : Nat}
    {best : Option PathConfig} {sub : Str} {lenShort : Nat}
    (h : scanInv pset q k best sub lenShort) : lenShort ≤ q.length := by
  rcases h with ⟨_, _, rfl, _⟩ | ⟨b, jb, _, _, _, _, _, _, _, _, rfl, _⟩
  · exact le_refl _
  · omega

theorem slowScanF_spec (pset : PathConfigSet) (q : Str) (stop : Nat)
    (hstop : stop ≤ pset.length) :
    ∀ fuel k best sub lenShort, stop - k ≤ fuel → k ≤ stop →
      scanInv pset q k best sub lenShort →
      ∃ best' sub' lenShort',
        slowScanF pset q fuel k stop best sub lenShort = some (best', sub') ∧
        scanInv pset q stop best' sub' lenShort' := by
  intro fuel
  induction fuel with
  | zero =>
    intro k best sub lenShort h1 h2 hinv
    have hk : k = stop := by omega
    subst hk
    simp only [slowScanF]
    rw [if_neg (by omega)]
    exact ⟨best, sub, lenShort, rfl, hinv⟩
  | succ fuel ih =>
    intro k best sub lenShort h1 h2 hinv
    simp only [slowScanF]
    by_cases hks : k < stop
    · rw [if_pos hks, if_pos (by omega)]
      by_cases hlen : q.length ≤ (pset.getD k dflt).path.length
      · rw [if_pos hlen]
        refine ih (k + 1) best sub lenShort (by omega) (by omega) ?_
        rcases hinv with ⟨hb, hs, hl, hall⟩ | ⟨b, jb, hb, hjb, hjl, hgd, hpref, hpos, hlt, hsub, hlsh, hopt⟩
        · refine Or.inl ⟨hb, hs, hl, ?_⟩
          intro j hj
          rcases Nat.lt_succ_iff_lt_or_eq.1 hj with hj' | rfl
          · exact hall j hj'
          · intro ⟨_, _, _, hcon⟩
            omega
        · refine Or.inr ⟨b, jb, hb, by omega, hjl, hgd, hpref, hpos, hlt, hsub, hlsh, ?_⟩
          intro j hj hjn hp hl'
          rcases Nat.lt_succ_iff_lt_or_eq.1 hj with hj' | rfl
          · exact hopt j hj' hjn hp hl'
          · omega
      · rw [if_neg hlen]
        have hlenlt : (pset.getD k dflt).path.length < q.length := by omega
        have hlsq : lenShort ≤ q.length := scanInv_le_lenShort hinv
        by_cases hupd : (trimPref q (pset.getD k dflt).path).length < lenShort
        · rw [if_pos hupd]
          have hpref : hasPref q (pset.getD k dflt).path = true := by
            cases hp : hasPref q (pset.getD k dflt).path with
            | true => rfl
            | false =>
              rw [trimPref, hp] at hupd
              simp at hupd
              omega
          have hdrop : trimPref q (pset.getD k dflt).path =
              q.drop (pset.getD k dflt).path.length := by
            rw [trimPref, hpref]
            simp
          have hdlen : (trimPref q (pset.getD k dflt).path).length =
              q.length - (pset.getD k dflt).path.length := by
            rw [hdrop, List.length_drop]
          refine ih (k + 1) (some (pset.getD k dflt)) (trimPref q (pset.getD k dflt).path)
            (trimPref q (pset.getD k dflt).path).length (by omega) (by omega) ?_
          refine Or.inr ⟨pset.getD k dflt, k, rfl, by omega, by omega, rfl, hpref, ?_, hlenlt,
            hdrop, by omega, ?_⟩
          · rcases hinv with ⟨_, _, hl, _⟩ | ⟨b, jb, _, _, _, _, _, hpos, hlt, _, hlsh, _⟩
            · omega
            · omega
          · intro j hj hjn hp hl'
            rcases Nat.lt_succ_iff_lt_or_eq.1 hj with hj' | rfl
            · rcases hinv with ⟨_, _, hl, hall⟩ | ⟨b, jb, hb, hjb, hjl, hgd, hprefb, hposb, hltb, hsub, hlsh, hopt⟩
              · by_cases hz : 0 < (pset.getD j dflt).path.length
                · exact absurd ⟨hjn, hp, hz, hl'⟩ (hall j hj')
                · omega
              · have := hopt j hj' hjn hp hl'
                omega
            · exact le_refl _
        · rw [if_neg hupd]
          refine ih (k + 1) best sub lenShort (by omega) (by omega) ?_
          rcases hinv with ⟨hb, hs, hl, hall⟩ | ⟨b, jb, hb, hjb, hjl, hgd, hpref, hpos, hlt, hsub, hlsh, hopt⟩
          · refine Or.inl ⟨hb, hs, hl, ?_⟩
            intro j hj
            rcases Nat.lt_succ_iff_lt_or_eq.1 hj with hj' | rfl
            · exact hall j hj'
            · intro ⟨_, hp, hz, hl'⟩
              have hdrop : trimPref q (pset.getD j dflt).path =
                  q.drop (pset.getD j dflt).path.length := by
                rw [trimPref, hp]
                simp
              have : (trimPref q (pset.getD j dflt).path).length =
                  q.length - (pset.getD j dflt).path.length := by
                rw [hdrop, List.length_drop]
              omega
          · refine Or.inr ⟨b, jb, hb, by omega, hjl, hgd, hpref, hpos, hlt, hsub, hlsh, ?_⟩
            intro j hj hjn hp hl'
            rcases Nat.lt_succ_iff_lt_or_eq.1 hj with hj' | rfl
            · exact hopt j hj' hjn hp hl'
            · have hdrop : trimPref q (pset.getD j dflt).path =
                  q.drop (pset.getD j dflt).path.length := by
                rw [trimPref, hp]
                simp
              have : (trimPref q (pset.getD j dflt).path).length =
                  q.length - (pset.getD j dflt).path.length := by
                rw [hdrop, List.length_drop]
              omega
    · rw [if_neg hks]
      have hk : k = stop := by omega
      subst hk
      exact ⟨best, sub, lenShort, rfl, hinv⟩

/-! Characterization of `find`: totality, exact matches, match shapes. -/

theorem find_total (pset : PathConfigSet) (q : Str) : ∃ res, find pset q = some res := by
  simp only [find]
  set F : Nat → Bool := fun k => strLe q (pset.getD k dflt).path with hF
  set r : Nat := Search pset.length F with hrdef
  have hrle : r ≤ pset.length := Search_le pset.length F
  by_cases h1 : r < pset.length ∧ (pset.getD r dflt).path = q
  · rw [if_pos h1]
    exact ⟨_, rfl⟩
  · rw [if_neg h1]
    by_cases h2 : 0 < r ∧ hasPref q ((pset.getD (r - 1) dflt).path ++ ['/']) = true
    · rw [if_pos h2]
      have hle := length_le_of_hasPref h2.2
      have hb : (pset.getD (r - 1) dflt).path.length + 1 ≤ q.length := by
        simp only [List.length_append, List.length_cons, List.length_nil] at hle
        omega
      rw [goSlice, if_pos hb]
      exact ⟨_, rfl⟩
    · rw [if_neg h2]
      rcases slowScanF_spec pset q r hrle pset.length 0 none [] q.length (by omega) (by omega)
        (Or.inl ⟨rfl, rfl, rfl, fun j hj => absurd hj (by omega)⟩) with ⟨b', s', l', heq, _⟩
      exact ⟨_, heq⟩

theorem find_no_qualify (pset : PathConfigSet) (q : Str)
    (h : ∀ pc ∈ pset, hasPref q pc.path = false) : find pset q = some (none, []) := by
  simp only [find]
  set F : Nat → Bool := fun k => strLe q (pset.getD k dflt).path with hF
  set r : Nat := Search pset.length F with hrdef
  have hrle : r ≤ pset.length := Search_le pset.length F
  have h1 : ¬ (r < pset.length ∧ (pset.getD r dflt).path = q) := by
    rintro ⟨hrl, hpq⟩
    have hm := h (pset.getD r dflt) (getD_mem pset r hrl)
    rw [hpq, hasPref_self q] at hm
    cases hm
  rw [if_neg h1]
  have h2 : ¬ (0 < r ∧ hasPref q ((pset.getD (r - 1) dflt).path ++ ['/']) = true) := by
    rintro ⟨hr0, hpref⟩
    have hm := h (pset.getD (r - 1) dflt) (getD_mem pset (r - 1) (by omega))
    rw [hasPref_of_append hpref] at hm
    cases hm
  rw [if_neg h2]
  rcases slowScanF_spec pset q r hrle pset.length 0 none [] q.length (by omega) (by omega)
    (Or.inl ⟨rfl, rfl, rfl, fun j hj => absurd hj (by omega)⟩) with ⟨b', s', l', heq, hfin⟩
  rcases hfin with ⟨hb, hs, _, _⟩ | ⟨b, jb, hb, hjb, hjl, hgd, hpref, _⟩
  · subst hb; subst hs
    exact heq
  · have hm := h (pset.getD jb dflt) (getD_mem pset jb hjl)
    rw [hgd, hpref] at hm
    cases hm

theorem find_exact (pset : PathConfigSet) (q : Str) (hs : sortedLe pset)
    (pc0 : PathConfig) (h0 : pc0 ∈ pset) (hpath : pc0.path = q) :
    ∃ pc, find pset q = some (some pc, []) ∧ pc ∈ pset ∧ pc.path = q := by
  simp only [find]
  set F : Nat → Bool := fun k => strLe q (pset.getD k dflt).path with hF
  set r : Nat := Search pset.length F with hrdef
  have hmono : ∀ a b, a ≤ b → b < pset.length → F a = true → F b = true := by
    intro a b hab hb hFa
    rcases Nat.lt_or_ge a b with hlt | hge
    · exact strLe_trans hFa (pairwise_getD pset hs a b hlt hb)
    · have : a = b := by omega
      subst this
      exact hFa
  obtain ⟨hlow, hhigh⟩ := Search_spec pset.length F hmono
  rcases mem_getD pset pc0 h0 with ⟨jx, hjx, hgx⟩
  have hFjx : F jx = true := by
    show strLe q (pset.getD jx dflt).path = true
    rw [hgx, hpath]
    exact strLe_refl q
  have hrjx : r ≤ jx := by
    by_contra hcon
    rw [hlow jx (by omega)] at hFjx
    cases hFjx
  have hrn : r < pset.length := by omega
  have hFr : F r = true := hhigh r (le_refl r) hrn
  have hreq : (pset.getD r dflt).path = q := by
    rcases Nat.lt_or_ge r jx with hlt | hge
    · have hle := pairwise_getD pset hs r jx hlt hjx
      rw [hgx, hpath] at hle
      exact strLe_antisymm hle hFr
    · have : r = jx := by omega
      rw [this, hgx, hpath]
  rw [if_pos ⟨hrn, hreq⟩]
  exact ⟨pset.getD r dflt, rfl, getD_mem pset r hrn, hreq⟩

theorem find_match_shape (pset : PathConfigSet) (q : Str) (pc : PathConfig) (sub : Str)
    (h : find pset q = some (some pc, sub)) :
    pc ∈ pset ∧ ((sub = [] ∧ pc.path = q) ∨ q = pc.path ++ '/' :: sub ∨
      (q = pc.path ++ sub ∧ sub ≠ [])) := by
  rw [find] at h
  set F : Nat → Bool := fun k => strLe q (pset.getD k dflt).path with hF
  set r : Nat := Search pset.length F with hrdef
  have hrle : r ≤ pset.length := Search_le pset.length F
  by_cases h1 : r < pset.length ∧ (pset.getD r dflt).path = q
  · rw [if_pos h1] at h
    have hpc : pset.getD r dflt = pc := by
      injection h with h'
      injection h' with h1' h2'
      injection h1'
    have hsub : sub = [] := by
      injection h with h'
      injection h' with h1' h2'
      exact h2'.symm
    subst hpc
    exact ⟨getD_mem pset r h1.1, Or.inl ⟨hsub, h1.2⟩⟩
  · rw [if_neg h1] at h
    by_cases h2 : 0 < r ∧ hasPref q ((pset.getD (r - 1) dflt).path ++ ['/']) = true
    · rw [if_pos h2] at h
      have hle := length_le_of_hasPref h2.2
      have hb : (pset.getD (r - 1) dflt).path.length + 1 ≤ q.length := by
        simp only [List.length_append, List.length_cons, List.length_nil] at hle
        omega
      rw [goSlice, if_pos hb] at h
      have hpc : pset.getD (r - 1) dflt = pc := by
        injection h with h'
        injection h' with h1' h2'
        injection h1'
      have hsub : sub = q.drop ((pset.getD (r - 1) dflt).path.length + 1) := by
        injection h with h'
        injection h' with h1' h2'
        exact h2'.symm
      have hmem : pc ∈ pset := by
        rw [← hpc]
        exact getD_mem pset (r - 1) (by omega)
      refine ⟨hmem, Or.inr (Or.inl ?_)⟩
      have hq := eq_append_drop_of_hasPref h2.2
      rw [List.append_assoc, List.singleton_append] at hq
      have hlen : (((pset.getD (r - 1) dflt).path) ++ ['/']).length =
          (pset.getD (r - 1) dflt).path.length + 1 := by
        simp
      rw [hlen] at hq
      rw [← hsub] at hq
      rw [hpc] at hq
      exact hq
    · rw [if_neg h2] at h
      rcases slowScanF_spec pset q r hrle pset.length 0 none [] q.length (by omega) (by omega)
        (Or.inl ⟨rfl, rfl, rfl, fun j hj => absurd hj (by omega)⟩) with ⟨b', s', l', heq, hfin⟩
      rw [heq] at h
      rcases hfin with ⟨hb, hs, _, _⟩ | ⟨b, jb, hb, hjb, hjl, hgd, hpref, hpos, hlt, hsubq, _, _⟩
      · subst hb
        injection h with h'
        injection h' with h1' _
        cases h1'
      · subst hb
        have hbpc : b = pc := by
          injection h with h'
          injection h' with h1' _
          injection h1'
        have hsubeq : sub = s' := by
          injection h with h'
          injection h' with _ h2'
          exact h2'.symm
        refine ⟨?_, Or.inr (Or.inr ⟨?_, ?_⟩)⟩
        · rw [← hbpc, ← hgd]
          exact getD_mem pset jb hjl
        · rw [← hbpc, hsubeq, hsubq]
          exact eq_append_drop_of_hasPref hpref
        · rw [hsubeq, hsubq]
          intro hcon
          have hlencon := congrArg List.length hcon
          rw [List.length_drop] at hlencon
          simp only [List.length_nil] at hlencon
          omega

/-! Properties of the spec-side naive scan, and the refinement theorem. -/

theorem length_lt_of_strict_pref {s p : Str} (h : hasPref s p = true) (hne : p ≠ s) :
    p.length < s.length := by
  have hle := length_le_of_hasPref h
  rcases Nat.lt_or_ge p.length s.length with h' | h'
  · exact h'
  · exact absurd (eq_of_hasPref_of_len_eq h (hasPref_self s) (by omega)) hne

theorem sortedLt_unique_path (pset : PathConfigSet) (hs : sortedLt pset) :
    ∀ pc₁ pc₂, pc₁ ∈ pset → pc₂ ∈ pset → pc₁.path = pc₂.path → pc₁ = pc₂ := by
  intro pc₁ pc₂ h1 h2 hp
  rcases mem_getD pset pc₁ h1 with ⟨j1, hj1, hg1⟩
  rcases mem_getD pset pc₂ h2 with ⟨j2, hj2, hg2⟩
  rcases Nat.lt_trichotomy j1 j2 with h | h | h
  · have hlt := pairwise_getD pset hs j1 j2 h hj2
    rw [hg1, hg2, hp, strLt_irrefl] at hlt
    cases hlt
  · rw [← hg1, ← hg2, h]
  · have hlt := pairwise_getD pset hs j2 j1 h hj1
    rw [hg1, hg2, hp, strLt_irrefl] at hlt
    cases hlt

theorem strLe_search_mono (pset : PathConfigSet) (q : Str) (hs : sortedLe pset) :
    ∀ a b, a ≤ b → b < pset.length →
      strLe q (pset.getD a dflt).path = true → strLe q (pset.getD b dflt).path = true := by
  intro a b hab hb hFa
  rcases Nat.lt_or_ge a b with hlt | hge
  · exact strLe_trans hFa (pairwise_getD pset hs a b hlt hb)
  · have hab' : a = b := by omega
    subst hab'
    exact hFa

theorem pref_le_of_indices (pset : PathConfigSet) (q : Str) (hs : sortedLt pset)
    {j jm : Nat} (_hj : j < pset.length) (hjm : jm < pset.length) (hle : j ≤ jm)
    (hpj : hasPref q (pset.getD j dflt).path = true)
    (hpm : hasPref q (pset.getD jm dflt).path = true) :
    (pset.getD j dflt).path.length ≤ (pset.getD jm dflt).path.length := by
  rcases Nat.lt_or_ge j jm with h | h
  · have hlt := pairwise_getD pset hs j jm h hjm
    by_contra hcon
    have hpp := hasPref_mono_len hpm hpj (by omega)
    have hne : (pset.getD jm dflt).path ≠ (pset.getD j dflt).path := by
      intro he
      rw [he] at hcon
      omega
    have hlt2 := strLt_of_hasPref_ne hpp hne
    rw [strLt_asymm _ _ hlt] at hlt2
    cases hlt2
  · have hjeq : j = jm := by omega
    rw [hjeq]

theorem foldl_stepSel_spec (q : Str) :
    ∀ (l : PathConfigSet) (init : Option PathConfig),
      (l.foldl (stepSel q) init = none ∧ init = none ∧
        ∀ pc ∈ l, ¬ (hasPref q pc.path = true ∧ pc.path ≠ q)) ∨
      (∃ b, l.foldl (stepSel q) init = some b ∧
        (init = some b ∨ (b ∈ l ∧ hasPref q b.path = true ∧ b.path ≠ q)) ∧
        (∀ pc ∈ l, hasPref q pc.path = true → pc.path ≠ q →
          pc.path.length ≤ b.path.length) ∧
        (∀ b₀, init = some b₀ → b₀.path.length ≤ b.path.length)) := by
  intro l
  induction l with
  | nil =>
    intro init
    cases init with
    | none => exact Or.inl ⟨rfl, rfl, by simp⟩
    | some b =>
      refine Or.inr ⟨b, rfl, Or.inl rfl, by simp, ?_⟩
      intro b₀ hb₀
      injection hb₀ with hb₀
      rw [← hb₀]
  | cons pc l ih =>
    intro init
    rw [List.foldl_cons]
    by_cases hSP : hasPref q pc.path = true ∧ pc.path ≠ q
    · cases init with
      | none =>
        have hstep : stepSel q none pc = some pc := by rw [stepSel.eq_def, if_pos hSP]
        rw [hstep]
        rcases ih (some pc) with ⟨_, hinit, _⟩ | ⟨b, heq, hmem, hopt, hinit⟩
        · cases hinit
        · refine Or.inr ⟨b, heq, ?_, ?_, ?_⟩
          · rcases hmem with hbi | ⟨hbl, hSPb⟩
            · injection hbi with hbi
              exact Or.inr ⟨by rw [← hbi]; exact List.mem_cons_self pc l,
                by rw [← hbi]; exact hSP.1, by rw [← hbi]; exact hSP.2⟩
            · exact Or.inr ⟨List.mem_cons_of_mem pc hbl, hSPb⟩
          · intro pc' hpc' hp hne
            rcases List.mem_cons.1 hpc' with heqc | hpc'
            · rw [heqc]
              exact hinit pc rfl
            · exact hopt pc' hpc' hp hne
          · intro b₀ hb₀
            cases hb₀
      | some b₁ =>
        have hstep : stepSel q (some b₁) pc =
            if b₁.path.length < pc.path.length then some pc else some b₁ := by
          rw [stepSel.eq_def, if_pos hSP]
        rw [hstep]
        by_cases hcmp : b₁.path.length < pc.path.length
        · rw [if_pos hcmp]
          rcases ih (some pc) with ⟨_, hinit, _⟩ | ⟨b, heq, hmem, hopt, hinit⟩
          · cases hinit
          · refine Or.inr ⟨b, heq, ?_, ?_, ?_⟩
            · rcases hmem with hbi | ⟨hbl, hSPb⟩
              · injection hbi with hbi
                exact Or.inr ⟨by rw [← hbi]; exact List.mem_cons_self pc l,
                  by rw [← hbi]; exact hSP.1, by rw [← hbi]; exact hSP.2⟩
              · exact Or.inr ⟨List.mem_cons_of_mem pc hbl, hSPb⟩
            · intro pc' hpc' hp hne
              rcases List.mem_cons.1 hpc' with heqc | hpc'
              · rw [heqc]
                exact hinit pc rfl
              · exact hopt pc' hpc' hp hne
            · intro b₀ hb₀
              injection hb₀ with hb₀
              have hpcb : pc.path.length ≤ b.path.length := hinit pc rfl
              rw [← hb₀]
              omega
        · rw [if_neg hcmp]
          rcases ih (some b₁) with ⟨_, hinit, _⟩ | ⟨b, heq, hmem, hopt, hinit⟩
          · cases hinit
          · refine Or.inr ⟨b, heq, ?_, ?_, ?_⟩
            · rcases hmem with hbi | ⟨hbl, hSPb⟩
              · exact Or.inl hbi
              · exact Or.inr ⟨List.mem_cons_of_mem pc hbl, hSPb⟩
            · intro pc' hpc' hp hne
              rcases List.mem_cons.1 hpc' with heqc | hpc'
              · have h1 : b₁.path.length ≤ b.path.length := hinit b₁ rfl
                rw [heqc]
                omega
              · exact hopt pc' hpc' hp hne
            · intro b₀ hb₀
              injection hb₀ with hb₀
              have h1 : b₁.path.length ≤ b.path.length := hinit b₁ rfl
              rw [← hb₀]
              exact h1
    · have hstep : stepSel q init pc = init := by rw [stepSel.eq_def, if_neg hSP]
      rw [hstep]
      rcases ih init with ⟨heq, hinit, hall⟩ | ⟨b, heq, hmem, hopt, hinit⟩
      · refine Or.inl ⟨heq, hinit, ?_⟩
        intro pc' hpc'
        rcases List.mem_cons.1 hpc' with heqc | hpc'
        · rw [heqc]
          exact hSP
        · exact hall pc' hpc'
      · refine Or.inr ⟨b, heq, ?_, ?_, hinit⟩
        · rcases hmem with hbi | ⟨hbl, hSPb⟩
          · exact Or.inl hbi
          · exact Or.inr ⟨List.mem_cons_of_mem pc hbl, hSPb⟩
        · intro pc' hpc' hp hne
          rcases List.mem_cons.1 hpc' with heqc | hpc'
          · rw [heqc] at hp hne
            exact absurd ⟨hp, hne⟩ hSP
          · exact hopt pc' hpc' hp hne

theorem find_eq (pset : PathConfigSet) (q : Str) :
    find pset q =
      if findIdx pset q < pset.length ∧ (pset.getD (findIdx pset q) dflt).path = q then
        some (some (pset.getD (findIdx pset q) dflt), [])
      else if 0 < findIdx pset q ∧
          hasPref q ((pset.getD (findIdx pset q - 1) dflt).path ++ ['/']) = true then
        match goSlice q ((pset.getD (findIdx pset q - 1) dflt).path.length + 1) with
        | some sub => some (some (pset.getD (findIdx pset q - 1) dflt), sub)
        | none => none
      else
        slowScanF pset q pset.length 0 (findIdx pset q) none [] q.length := rfl

theorem findIdx_le (pset : PathConfigSet) (q : Str) : findIdx pset q ≤ pset.length :=
  Search_le pset.length _

theorem findIdx_lower (pset : PathConfigSet) (q : Str) (hs : sortedLe pset) :
    ∀ k, k < findIdx pset q → strLe q (pset.getD k dflt).path = false :=
  (Search_spec pset.length (fun k => strLe q (pset.getD k dflt).path)
    (strLe_search_mono pset q hs)).1

theorem findIdx_upper (pset : PathConfigSet) (q : Str) (hs : sortedLe pset) :
    ∀ k, findIdx pset q ≤ k → k < pset.length → strLe q (pset.getD k dflt).path = true :=
  (Search_spec pset.length (fun k => strLe q (pset.getD k dflt).path)
    (strLe_search_mono pset q hs)).2

theorem find_refines_naive (pset : PathConfigSet) (q : Str) (hs : sortedLt pset)
    (hnn : ∀ pc ∈ pset, pc.path ≠ []) :
    ∃ sub, find pset q = some (naiveMatch pset q, sub) := by
  have hsle : sortedLe pset := List.Pairwise.imp (fun h => strLe_of_strLt h) hs
  by_cases hex : ∃ pc ∈ pset, pc.path = q
  · rcases hex with ⟨pc0, h0, hp0⟩
    rcases find_exact pset q hsle pc0 h0 hp0 with ⟨pc, hfind, hmem, hpath⟩
    cases hfs : pset.find? (fun pc => pc.path == q) with
    | none =>
      have hnone := List.find?_eq_none.1 hfs pc0 h0
      simp only [beq_iff_eq] at hnone
      exact absurd hp0 hnone
    | some pcf =>
      have hpf : pcf.path = q := by
        have := List.find?_some hfs
        simpa using this
      have hmf : pcf ∈ pset := List.mem_of_find?_eq_some hfs
      have hpcf : pcf = pc :=
        sortedLt_unique_path pset hs pcf pc hmf hmem (by rw [hpf, hpath])
      have hnm : naiveMatch pset q = some pc := by
        rw [naiveMatch.eq_def, hfs, hpcf]
      exact ⟨[], by rw [hnm]; exact hfind⟩
  · have hfq : pset.find? (fun pc => pc.path == q) = none := by
      rw [List.find?_eq_none]
      intro a ha
      simp only [beq_iff_eq]
      intro hq'
      exact hex ⟨a, ha, hq'⟩
    have hnm_fold : naiveMatch pset q = pset.foldl (stepSel q) none := by
      rw [naiveMatch.eq_def, hfq]
    have hrle := findIdx_le pset q
    have hlow := findIdx_lower pset q hsle
    have hhigh := findIdx_upper pset q hsle
    rw [find_eq]
    set r : Nat := findIdx pset q with hrdef
    have hbridge : ∀ j, j < pset.length → hasPref q (pset.getD j dflt).path = true →
        (pset.getD j dflt).path ≠ q → j < r := by
      intro j hj hp hneq
      by_contra hcon
      have hFj := hhigh j (by omega) hj
      rw [not_strLe_of_strLt (strLt_of_hasPref_ne hp hneq)] at hFj
      cases hFj
    have h1 : ¬ (r < pset.length ∧ (pset.getD r dflt).path = q) := by
      rintro ⟨hrl, hpq⟩
      exact hex ⟨pset.getD r dflt, getD_mem pset r hrl, hpq⟩
    rw [if_neg h1]
    by_cases h2 : 0 < r ∧ hasPref q ((pset.getD (r - 1) dflt).path ++ ['/']) = true
    · rw [if_pos h2]
      have hprefp : hasPref q (pset.getD (r - 1) dflt).path = true := hasPref_of_append h2.2
      have hlenp : (pset.getD (r - 1) dflt).path.length + 1 ≤ q.length := by
        have := length_le_of_hasPref h2.2
        simp only [List.length_append, List.length_cons, List.length_nil] at this
        omega
      have hnep : (pset.getD (r - 1) dflt).path ≠ q := by
        intro he
        have := congrArg List.length he
        omega
      have hmemp : pset.getD (r - 1) dflt ∈ pset := getD_mem pset (r - 1) (by omega)
      have hmaxp : ∀ pc' ∈ pset, hasPref q pc'.path = true → pc'.path ≠ q →
          pc'.path.length ≤ (pset.getD (r - 1) dflt).path.length := by
        intro pc' hm hp hneq
        rcases mem_getD pset pc' hm with ⟨j, hj, hgj⟩
        have hjr : j < r := hbridge j hj (by rw [hgj]; exact hp) (by rw [hgj]; exact hneq)
        have hple := pref_le_of_indices pset q hs hj (show r - 1 < pset.length by omega)
          (by omega) (by rw [hgj]; exact hp) hprefp
        rw [hgj] at hple
        exact hple
      rcases foldl_stepSel_spec q pset none with ⟨heqf, _, hallf⟩ | ⟨b, heqf, hmemf, hoptf, _⟩
      · exact absurd ⟨hprefp, hnep⟩ (hallf _ hmemp)
      · rcases hmemf with hbi | ⟨hbl, hpb, hneb⟩
        · cases hbi
        · have h1l : (pset.getD (r - 1) dflt).path.length ≤ b.path.length :=
            hoptf _ hmemp hprefp hnep
          have h2l : b.path.length ≤ (pset.getD (r - 1) dflt).path.length :=
            hmaxp b hbl hpb hneb
          have hbe : b = pset.getD (r - 1) dflt :=
            sortedLt_unique_path pset hs b _ hbl hmemp
              (eq_of_hasPref_of_len_eq hpb hprefp (by omega))
          have hnm : naiveMatch pset q = some (pset.getD (r - 1) dflt) := by
            rw [hnm_fold, heqf, hbe]
          rw [hnm, goSlice, if_pos hlenp]
          exact ⟨_, rfl⟩
    · rw [if_neg h2]
      rcases slowScanF_spec pset q r hrle pset.length 0 none [] q.length (by omega) (by omega)
        (Or.inl ⟨rfl, rfl, rfl, fun j hj => absurd hj (by omega)⟩) with ⟨b', s', l', heq, hfin⟩
      rw [heq]
      rcases hfin with ⟨hb, hsx, _, hnogood⟩ |
        ⟨b, jb, hb, hjb, hjl, hgd, hpref, hpos, hlt, hsubq, _, hoptinv⟩
      · subst hb
        subst hsx
        rcases foldl_stepSel_spec q pset none with ⟨heqf, _, _⟩ | ⟨b, heqf, hmemf, hoptf, _⟩
        · rw [hnm_fold, heqf]
          exact ⟨[], rfl⟩
        · exfalso
          rcases hmemf with hbi | ⟨hbl, hpb, hneb⟩
          · cases hbi
          · rcases mem_getD pset b hbl with ⟨j, hj, hgj⟩
            have hjr : j < r := hbridge j hj (by rw [hgj]; exact hpb) (by rw [hgj]; exact hneb)
            refine (hnogood j hjr) ⟨hj, by rw [hgj]; exact hpb, ?_, ?_⟩
            · rw [hgj]
              exact List.length_pos.2 (hnn b hbl)
            · rw [hgj]
              exact length_lt_of_strict_pref hpb hneb
      · subst hb
        rcases foldl_stepSel_spec q pset none with ⟨heqf, _, hallf⟩ | ⟨b2, heqf, hmemf, hoptf, _⟩
        · exfalso
          have hmb : b ∈ pset := by
            rw [← hgd]
            exact getD_mem pset jb hjl
          have hneb : b.path ≠ q := by
            intro he
            rw [he] at hlt
            omega
          exact (hallf b hmb) ⟨hpref, hneb⟩
        · rcases hmemf with hbi | ⟨hbl2, hpb2, hneb2⟩
          · cases hbi
          · have hmb : b ∈ pset := by
              rw [← hgd]
              exact getD_mem pset jb hjl
            have hneb : b.path ≠ q := by
              intro he
              rw [he] at hlt
              omega
            have h1l : b.path.length ≤ b2.path.length := hoptf b hmb hpref hneb
            rcases mem_getD pset b2 hbl2 with ⟨j2, hj2, hgj2⟩
            have hj2r : j2 < r := hbridge j2 hj2 (by rw [hgj2]; exact hpb2)
              (by rw [hgj2]; exact hneb2)
            have h2l : b2.path.length ≤ b.path.length := by
              have hoi := hoptinv j2 hj2r hj2 (by rw [hgj2]; exact hpb2)
                (by rw [hgj2]; exact length_lt_of_strict_pref hpb2 hneb2)
              rw [hgj2] at hoi
              exact hoi
            have hbe : b2 = b := sortedLt_unique_path pset hs b2 b hbl2 hmb
              (eq_of_hasPref_of_len_eq hpb2 hpref (by omega))
            rw [hnm_fold, heqf, hbe]
            exact ⟨s', rfl⟩

/-! Construction: sorting is canonical on pairwise-distinct paths. -/

theorem insertSorted_perm (a : PathConfig) :
    ∀ l : PathConfigSet, List.Perm (insertSorted a l) (a :: l) := by
  intro l
  induction l with
  | nil => exact List.Perm.refl _
  | cons b t ih =>
    simp only [insertSorted]
    by_cases h : strLe a.path b.path = true
    · rw [if_pos h]
    · rw [if_neg h]
      exact (ih.cons b).trans (List.Perm.swap a b t)

theorem sortPaths_perm : ∀ l : PathConfigSet, List.Perm (sortPaths l) l := by
  intro l
  induction l with
  | nil => exact List.Perm.refl _
  | cons a t ih =>
    show List.Perm (insertSorted a (sortPaths t)) (a :: t)
    exact (insertSorted_perm a (sortPaths t)).trans (ih.cons a)

theorem insertSorted_sortedLe (a : PathConfig) :
    ∀ l : PathConfigSet, sortedLe l → sortedLe (insertSorted a l) := by
  intro l
  induction l with
  | nil => intro _; exact List.pairwise_singleton _ _
  | cons b t ih =>
    intro hp
    rcases List.pairwise_cons.1 hp with ⟨hb, ht⟩
    simp only [insertSorted]
    by_cases h : strLe a.path b.path = true
    · rw [if_pos h]
      refine List.Pairwise.cons ?_ hp
      intro x hx
      rcases List.mem_cons.1 hx with heq | hx
      · rw [heq]
        exact h
      · exact strLe_trans h (hb x hx)
    · rw [if_neg h]
      have h' : strLe a.path b.path = false := by
        cases hx : strLe a.path b.path with
        | false => rfl
        | true => exact absurd hx h
      refine List.Pairwise.cons ?_ (ih ht)
      intro x hx
      rcases List.mem_cons.1 ((insertSorted_perm a t).mem_iff.1 hx) with heq | hx
      · rw [heq]
        exact strLe_of_strLt (strLt_of_not_strLe h')
      · exact hb x hx

theorem sortPaths_sortedLe : ∀ l : PathConfigSet, sortedLe (sortPaths l) := by
  intro l
  induction l with
  | nil => exact List.Pairwise.nil
  | cons a t ih =>
    show sortedLe (insertSorted a (sortPaths t))
    exact insertSorted_sortedLe a _ ih

theorem sortedLt_of_le_distinct : ∀ l : PathConfigSet,
    sortedLe l → distinctPaths l → sortedLt l := by
  intro l
  induction l with
  | nil => intro _ _; exact List.Pairwise.nil
  | cons a t ih =>
    intro h1 h2
    rcases List.pairwise_cons.1 h1 with ⟨ha1, ht1⟩
    rcases List.pairwise_cons.1 h2 with ⟨ha2, ht2⟩
    exact List.Pairwise.cons (fun x hx => strLt_of_strLe_ne (ha1 x hx) (ha2 x hx)) (ih ht1 ht2)

theorem distinctPaths_perm {l₁ l₂ : PathConfigSet} (h : List.Perm l₁ l₂)
    (hd : distinctPaths l₁) : distinctPaths l₂ :=
  (List.Perm.pairwise_iff (fun {_ _} hab => Ne.symm hab) h).1 hd

theorem eq_of_perm_sortedLt : ∀ l₁ l₂ : PathConfigSet, List.Perm l₁ l₂ →
    sortedLt l₁ → sortedLt l₂ → l₁ = l₂ := by
  intro l₁
  induction l₁ with
  | nil =>
    intro l₂ hp _ _
    exact List.Perm.nil_eq hp
  | cons a t ih =>
    intro l₂ hp h1 h2
    cases l₂ with
    | nil =>
      have := hp.symm.nil_eq
      cases this
    | cons b t₂ =>
      by_cases hab : a = b
      · subst hab
        have hpt : List.Perm t t₂ := hp.cons_inv
        rw [ih t₂ hpt (List.pairwise_cons.1 h1).2 (List.pairwise_cons.1 h2).2]
      · exfalso
        have ha2 : a ∈ b :: t₂ := hp.mem_iff.1 (List.mem_cons_self a t)
        rcases List.mem_cons.1 ha2 with h | h
        · exact hab h
        have hba := (List.pairwise_cons.1 h2).1 a h
        have hb1 : b ∈ a :: t := hp.symm.mem_iff.1 (List.mem_cons_self b t₂)
        rcases List.mem_cons.1 hb1 with h' | h'
        · exact hab h'.symm
        have hab' := (List.pairwise_cons.1 h1).1 b h'
        rw [strLt_asymm _ _ hab'] at hba
        cases hba

theorem sortPaths_sortedLt (l : PathConfigSet) (hd : distinctPaths l) :
    sortedLt (sortPaths l) :=
  sortedLt_of_le_distinct _ (sortPaths_sortedLe l)
    (distinctPaths_perm (sortPaths_perm l).symm hd)

theorem sortPaths_canonical (l₁ l₂ : PathConfigSet) (hp : List.Perm l₁ l₂)
    (hd : distinctPaths l₁) : sortPaths l₁ = sortPaths l₂ := by
  have hd₂ : distinctPaths l₂ := distinctPaths_perm hp hd
  refine eq_of_perm_sortedLt _ _ ?_ (sortPaths_sortedLt l₁ hd) (sortPaths_sortedLt l₂ hd₂)
  exact (sortPaths_perm l₁).trans (hp.trans (sortPaths_perm l₂).symm)

/-! Decomposition of Go `strings.TrimSuffix` as used by the path normalization. -/

theorem trimSuf_spec (s p : Str) :
    (hasSuf s p = true ∧ s = trimSuf s p ++ p) ∨
    (hasSuf s p = false ∧ trimSuf s p = s) := by
  cases h : hasSuf s p with
  | false =>
    refine Or.inr ⟨rfl, ?_⟩
    rw [trimSuf, h]
    simp
  | true =>
    refine Or.inl ⟨rfl, ?_⟩
    rcases (hasPref_iff_exists s.reverse p.reverse).1 h with ⟨t, ht⟩
    have hs : s = t.reverse ++ p := by
      have hrev := congrArg List.reverse ht
      rw [List.reverse_reverse, List.reverse_append, List.reverse_reverse] at hrev
      exact hrev
    rw [trimSuf, if_pos h, hs]
    have hlen : (t.reverse ++ p).length - p.length = t.reverse.length := by
      simp
    rw [hlen, take_len_append]

/-! Characterization of configuration ingestion (`NewVanityHandler`). -/

theorem buildPaths_error : ∀ (l : List (Str × VanityPath)) (acc : PathConfigSet),
    (∃ er, buildPaths l acc = .error er) ↔ ∃ pe ∈ l, badEntry pe.2 := by
  intro l
  induction l with
  | nil =>
    intro acc
    constructor
    · rintro ⟨er, her⟩
      cases her
    · rintro ⟨pe, hpe, _⟩
      simp at hpe
  | cons pe l ih =>
    intro acc
    obtain ⟨path, e⟩ := pe
    simp only [buildPaths]
    by_cases hv : e.vcs ≠ []
    · rw [if_pos hv]
      by_cases hk : e.vcs = str "bzr" ∨ e.vcs = str "git" ∨ e.vcs = str "hg" ∨ e.vcs = str "svn"
      · rw [if_pos hk]
        rw [ih]
        constructor
        · rintro ⟨pe', hpe', hbad⟩
          exact ⟨pe', List.mem_cons_of_mem _ hpe', hbad⟩
        · rintro ⟨pe', hpe', hbad⟩
          rcases List.mem_cons.1 hpe' with heq | hpe''
          · exfalso
            rw [heq] at hbad
            rcases hbad with ⟨_, hnk⟩ | ⟨hnil, _⟩
            · exact hnk hk
            · exact hv hnil
          · exact ⟨pe', hpe'', hbad⟩
      · rw [if_neg hk]
        constructor
        · intro _
          exact ⟨(path, e), List.mem_cons_self _ _, Or.inl ⟨hv, hk⟩⟩
        · intro _
          exact ⟨VErr.invalidVCS path e.repo, rfl⟩
    · rw [if_neg hv]
      have hvnil : e.vcs = [] := by
        by_contra hc
        exact hv hc
      by_cases hg : hasPref e.repo (str "https://github.com/") = true
      · rw [if_pos hg]
        rw [ih]
        constructor
        · rintro ⟨pe', hpe', hbad⟩
          exact ⟨pe', List.mem_cons_of_mem _ hpe', hbad⟩
        · rintro ⟨pe', hpe', hbad⟩
          rcases List.mem_cons.1 hpe' with heq | hpe''
          · exfalso
            rw [heq] at hbad
            rcases hbad with ⟨hne, _⟩ | ⟨_, hng⟩
            · exact hne hvnil
            · rw [hg] at hng
              cases hng
          · exact ⟨pe', hpe'', hbad⟩
      · rw [if_neg hg]
        constructor
        · intro _
          refine ⟨(path, e), List.mem_cons_self _ _, Or.inr ⟨hvnil, ?_⟩⟩
          cases hgg : hasPref e.repo (str "https://github.com/") with
          | false => rfl
          | true => exact absurd hgg hg
        · intro _
          exact ⟨VErr.invalidVCS path e.repo, rfl⟩

theorem buildPaths_error_shape : ∀ (l : List (Str × VanityPath)) (acc : PathConfigSet) (er : VErr),
    buildPaths l acc = .error er → ∃ p rp, er = .invalidVCS p rp := by
  intro l
  induction l with
  | nil =>
    intro acc er h
    cases h
  | cons pe l ih =>
    intro acc er h
    obtain ⟨path, e⟩ := pe
    simp only [buildPaths] at h
    by_cases hv : e.vcs ≠ []
    · rw [if_pos hv] at h
      by_cases hk : e.vcs = str "bzr" ∨ e.vcs = str "git" ∨ e.vcs = str "hg" ∨ e.vcs = str "svn"
      · rw [if_pos hk] at h
        exact ih _ er h
      · rw [if_neg hk] at h
        injection h with h'
        exact ⟨path, e.repo, h'.symm⟩
    · rw [if_neg hv] at h
      by_cases hg : hasPref e.repo (str "https://github.com/") = true
      · rw [if_pos hg] at h
        exact ih _ er h
      · rw [if_neg hg] at h
        injection h with h'
        exact ⟨path, e.repo, h'.symm⟩

theorem buildPaths_vcs_ok : ∀ (l : List (Str × VanityPath)) (acc pcs : PathConfigSet),
    buildPaths l acc = .ok pcs →
    (∀ pc ∈ acc, pc.vcs = str "bzr" ∨ pc.vcs = str "git" ∨
      pc.vcs = str "hg" ∨ pc.vcs = str "svn") →
    ∀ pc ∈ pcs, pc.vcs = str "bzr" ∨ pc.vcs = str "git" ∨
      pc.vcs = str "hg" ∨ pc.vcs = str "svn" := by
  intro l
  induction l with
  | nil =>
    intro acc pcs h hacc
    injection h with h'
    rw [← h']
    exact hacc
  | cons pe l ih =>
    intro acc pcs h hacc
    obtain ⟨path, e⟩ := pe
    simp only [buildPaths] at h
    by_cases hv : e.vcs ≠ []
    · rw [if_pos hv] at h
      by_cases hk : e.vcs = str "bzr" ∨ e.vcs = str "git" ∨ e.vcs = str "hg" ∨ e.vcs = str "svn"
      · rw [if_pos hk] at h
        refine ih _ pcs h ?_
        intro pc hpc
        rcases List.mem_append.1 hpc with h' | h'
        · exact hacc pc h'
        · rw [List.mem_singleton.1 h']
          exact hk
      · rw [if_neg hk] at h
        cases h
    · rw [if_neg hv] at h
      by_cases hg : hasPref e.repo (str "https://github.com/") = true
      · rw [if_pos hg] at h
        refine ih _ pcs h ?_
        intro pc hpc
        rcases List.mem_append.1 hpc with h' | h'
        · exact hacc pc h'
        · rw [List.mem_singleton.1 h']
          right
          left
          rfl
      · rw [if_neg hg] at h
        cases h

theorem mkHandler_cases (parsed : VanityConfig) (cacheAge : Int) :
    (∃ er, mkHandler parsed cacheAge = .error er ∧ ∃ pe ∈ parsed.paths, badEntry pe.2 ∧
      ∃ p rp, er = .invalidVCS p rp) ∨
    (∃ pcs, buildPaths parsed.paths [] = .ok pcs ∧
      mkHandler parsed cacheAge =
        .ok ⟨parsed.host, sortPaths pcs, str "public, max-age=" ++ intToStr cacheAge⟩ ∧
      ∀ pe ∈ parsed.paths, ¬ badEntry pe.2) := by
  cases hb : buildPaths parsed.paths [] with
  | error er =>
    rcases (buildPaths_error parsed.paths []).1 ⟨er, hb⟩ with ⟨pe, hpe, hbad⟩
    refine Or.inl ⟨er, ?_, pe, hpe, hbad, buildPaths_error_shape parsed.paths [] er hb⟩
    rw [mkHandler.eq_def, hb]
  | ok pcs =>
    refine Or.inr ⟨pcs, rfl, ?_, ?_⟩
    · rw [mkHandler.eq_def, hb]
    · intro pe hpe hbad
      rcases (buildPaths_error parsed.paths []).2 ⟨pe, hpe, hbad⟩ with ⟨er, her⟩
      rw [hb] at her
      cases her

theorem NewVanityHandler_some (parsed : VanityConfig) :
    NewVanityHandler (some parsed) =
      match parsed.cacheAge with
      | some a => if a < 0 then Except.error VErr.cacheMaxAgeNegative else mkHandler parsed a
      | none => mkHandler parsed 86400 := rfl

theorem NewVanityHandler_age (parsed : VanityConfig) (a : Int)
    (h : parsed.cacheAge = some a) :
    NewVanityHandler (some parsed) =
      if a < 0 then Except.error VErr.cacheMaxAgeNegative else mkHandler parsed a := by
  rw [NewVanityHandler_some, h]

theorem NewVanityHandler_noage (parsed : VanityConfig) (h : parsed.cacheAge = none) :
    NewVanityHandler (some parsed) = mkHandler parsed 86400 := by
  rw [NewVanityHandler_some, h]

theorem distinct_unique_path (pset : PathConfigSet) (hd : distinctPaths pset) :
    ∀ pc₁ pc₂, pc₁ ∈ pset → pc₂ ∈ pset → pc₁.path = pc₂.path → pc₁ = pc₂ := by
  intro pc₁ pc₂ h1 h2 hp
  by_contra hne
  exact (List.Pairwise.forall (fun {_ _} hab => Ne.symm hab) hd h1 h2 hne) hp

/-! Claim theorems. -/

/-- C1: for the table built from the entries {"/a" ↦ X, "/a/b" ↦ Y} (in either
input order the construction sorts them to [X, Y]), `find` on the query "/a/b/c"
returns the deeper entry Y with subpath "c" — and Y is not X. -/
theorem C1_longest_match :
    sortPaths [⟨str "/a/b", str "ry", [], str "git"⟩, ⟨str "/a", str "rx", [], str "git"⟩] =
      [⟨str "/a", str "rx", [], str "git"⟩, ⟨str "/a/b", str "ry", [], str "git"⟩] ∧
    find [⟨str "/a", str "rx", [], str "git"⟩, ⟨str "/a/b", str "ry", [], str "git"⟩]
        (str "/a/b/c") =
      some (some ⟨str "/a/b", str "ry", [], str "git"⟩, str "c") ∧
    (⟨str "/a/b", str "ry", [], str "git"⟩ : PathConfig) ≠
      ⟨str "/a", str "rx", [], str "git"⟩ := by
  refine ⟨by decide, by decide, by decide⟩

/-- C2 counterexample: the table with paths ["", "/abc", "/xyz"] — exactly what the
code's normalization produces from the configured keys {"/", "/abc", "/xyz"} — is
sorted ascending with pairwise-distinct paths, yet on the query "/def" `find`
returns no match while the spec's naive scan selects the root entry "" (the
longest configured strict prefix of "/def"), so the claimed equivalence fails. -/
theorem C2_counterexample :
    sortedLt [⟨[], str "r0", [], str "git"⟩, ⟨str "/abc", str "r1", [], str "git"⟩,
      ⟨str "/xyz", str "r2", [], str "git"⟩] ∧
    find [⟨[], str "r0", [], str "git"⟩, ⟨str "/abc", str "r1", [], str "git"⟩,
        ⟨str "/xyz", str "r2", [], str "git"⟩] (str "/def") = some (none, []) ∧
    naiveMatch [⟨[], str "r0", [], str "git"⟩, ⟨str "/abc", str "r1", [], str "git"⟩,
        ⟨str "/xyz", str "r2", [], str "git"⟩] (str "/def") =
      some ⟨[], str "r0", [], str "git"⟩ := by
  refine ⟨by decide, by decide, by decide⟩

/-- C2 amended: on every strictly sorted table all of whose paths are nonempty,
`find` returns the same matched entry as the spec's naive unbounded scan (the
exact match if present, otherwise the longest configured strict-prefix entry,
otherwise no match).  The nonempty-path restriction is forced by
the failure on the empty path, the image of the configured key "/". -/
theorem C2_find_refines_naive (pset : PathConfigSet) (q : Str) (hs : sortedLt pset)
    (hnn : ∀ pc ∈ pset, pc.path ≠ []) :
    ∃ sub, find pset q = some (naiveMatch pset q, sub) :=
  find_refines_naive pset q hs hnn

theorem C2_find_refines_naive_witness :
    ∃ sub, find [⟨str "/a", str "rx", [], str "git"⟩, ⟨str "/a/b", str "ry", [], str "git"⟩]
        (str "/a/b/c") =
      some (naiveMatch [⟨str "/a", str "rx", [], str "git"⟩,
        ⟨str "/a/b", str "ry", [], str "git"⟩] (str "/a/b/c"), sub) :=
  C2_find_refines_naive
    [⟨str "/a", str "rx", [], str "git"⟩, ⟨str "/a/b", str "ry", [], str "git"⟩]
    (str "/a/b/c") (by decide) (by decide)

/-- C3 counterexample: with the normalization the spec prescribes (the key "/" kept
as "/"), the configured keys {"/", "/abc", "/xyz"} yield the table with paths
["/", "/abc", "/xyz"], and on that table `find "/def"` DOES return the root entry
with subpath "def" through the slow path, contradicting the claimed no-match. -/
theorem C3_counterexample :
    find [⟨str "/", str "r0", [], str "git"⟩, ⟨str "/abc", str "r1", [], str "git"⟩,
        ⟨str "/xyz", str "r2", [], str "git"⟩] (str "/def") =
      some (some ⟨str "/", str "r0", [], str "git"⟩, str "def") := by
  decide

/-- C3 amended: under the code's actual normalization — `strings.TrimSuffix(path, "/")`
maps the configured key "/" to the empty path — the handler built from the keys
{"/", "/abc", "/xyz"} resolves "/def" to no match; in particular the entry built
from "/" is not returned. -/
theorem C3_no_spurious_match (h : VanityHandler)
    (hok : NewVanityHandler (some ⟨str "vanity.host", none,
      [(str "/", ⟨str "r0", str "d", str "git"⟩),
       (str "/abc", ⟨str "r1", str "d", str "git"⟩),
       (str "/xyz", ⟨str "r2", str "d", str "git"⟩)]⟩) = Except.ok h) :
    find h.paths (str "/def") = some (none, []) := by
  have hc : NewVanityHandler (some ⟨str "vanity.host", none,
      [(str "/", ⟨str "r0", str "d", str "git"⟩),
       (str "/abc", ⟨str "r1", str "d", str "git"⟩),
       (str "/xyz", ⟨str "r2", str "d", str "git"⟩)]⟩) =
      Except.ok ⟨str "vanity.host",
        [⟨[], str "r0", str "d", str "git"⟩, ⟨str "/abc", str "r1", str "d", str "git"⟩,
         ⟨str "/xyz", str "r2", str "d", str "git"⟩],
        str "public, max-age=86400"⟩ := by decide
  rw [hc] at hok
  injection hok with hok
  rw [← hok]
  decide

theorem C3_no_spurious_match_witness :
    NewVanityHandler (some ⟨str "vanity.host", none,
      [(str "/", ⟨str "r0", str "d", str "git"⟩),
       (str "/abc", ⟨str "r1", str "d", str "git"⟩),
       (str "/xyz", ⟨str "r2", str "d", str "git"⟩)]⟩) =
      Except.ok ⟨str "vanity.host",
        [⟨[], str "r0", str "d", str "git"⟩, ⟨str "/abc", str "r1", str "d", str "git"⟩,
         ⟨str "/xyz", str "r2", str "d", str "git"⟩],
        str "public, max-age=86400"⟩ ∧
    find [⟨[], str "r0", str "d", str "git"⟩, ⟨str "/abc", str "r1", str "d", str "git"⟩,
        ⟨str "/xyz", str "r2", str "d", str "git"⟩] (str "/def") = some (none, []) :=
  ⟨by decide, C3_no_spurious_match
    ⟨str "vanity.host",
      [⟨[], str "r0", str "d", str "git"⟩, ⟨str "/abc", str "r1", str "d", str "git"⟩,
       ⟨str "/xyz", str "r2", str "d", str "git"⟩],
      str "public, max-age=86400"⟩ (by decide)⟩

/-- C4 counterexample: for the sorted one-entry table {"/a"} and the query "/ab",
`find` matches the entry "/a" with subpath "b", although "b" is not empty, "/a"
is not "/ab", and "/ab" is not "/a" ++ "/" ++ "b" — the slow path matched a
prefix with no separating slash, refuting the claimed subpath shape. -/
theorem C4_counterexample :
    find [⟨str "/a", str "r", [], str "git"⟩] (str "/ab") =
      some (some ⟨str "/a", str "r", [], str "git"⟩, str "b") ∧
    ¬ ((str "b" = ([] : Str) ∧ str "/a" = str "/ab") ∨
      str "/ab" = str "/a" ++ '/' :: str "b") := by
  refine ⟨by decide, by decide⟩

/-- C4 amended: whenever `find` returns a match, the matched value is a table entry
and either (exact match) the subpath is empty and the entry's path equals the
query, or (immediate-child fast path) the query is the path ++ "/" ++ subpath, or
(general scan) the query is the path ++ subpath with a nonempty subpath — the
general scan removes the matched prefix but not a separating slash. -/
theorem C4_subpath_shape (pset : PathConfigSet) (q : Str) (pc : PathConfig) (sub : Str)
    (h : find pset q = some (some pc, sub)) :
    pc ∈ pset ∧ ((sub = [] ∧ pc.path = q) ∨ q = pc.path ++ '/' :: sub ∨
      (q = pc.path ++ sub ∧ sub ≠ [])) :=
  find_match_shape pset q pc sub h

theorem C4_subpath_shape_witness :
    (⟨str "/a", str "r", [], str "git"⟩ : PathConfig) ∈
        [⟨str "/a", str "r", [], str "git"⟩] ∧
      ((str "b" = ([] : Str) ∧ str "/a" = str "/ab") ∨
        str "/ab" = str "/a" ++ '/' :: str "b" ∨
        (str "/ab" = str "/a" ++ str "b" ∧ str "b" ≠ ([] : Str))) :=
  C4_subpath_shape [⟨str "/a", str "r", [], str "git"⟩] (str "/ab")
    ⟨str "/a", str "r", [], str "git"⟩ (str "b") (by decide)

/-- C5: on a table sorted ascending by path, if some entry's path equals the
request path exactly, `find` returns an entry bearing exactly that path with an
empty subpath — and under pairwise-distinct paths it is that entry itself. -/
theorem C5_exact_match (pset : PathConfigSet) (q : Str) (hs : sortedLe pset)
    (pc0 : PathConfig) (h0 : pc0 ∈ pset) (hpath : pc0.path = q) :
    ∃ pc, find pset q = some (some pc, []) ∧ pc ∈ pset ∧ pc.path = q ∧
      (distinctPaths pset → pc = pc0) := by
  rcases find_exact pset q hs pc0 h0 hpath with ⟨pc, h1, h2, h3⟩
  refine ⟨pc, h1, h2, h3, ?_⟩
  intro hd
  exact distinct_unique_path pset hd pc pc0 h2 h0 (by rw [h3, hpath])

theorem C5_exact_match_witness :
    ∃ pc, find [⟨str "/a", str "rx", [], str "git"⟩, ⟨str "/a/b", str "ry", [], str "git"⟩]
        (str "/a") = some (some pc, []) ∧
      pc ∈ [⟨str "/a", str "rx", [], str "git"⟩, ⟨str "/a/b", str "ry", [], str "git"⟩] ∧
      pc.path = str "/a" ∧
      (distinctPaths [⟨str "/a", str "rx", [], str "git"⟩,
          ⟨str "/a/b", str "ry", [], str "git"⟩] →
        pc = ⟨str "/a", str "rx", [], str "git"⟩) :=
  C5_exact_match [⟨str "/a", str "rx", [], str "git"⟩, ⟨str "/a/b", str "ry", [], str "git"⟩]
    (str "/a") (by decide) ⟨str "/a", str "rx", [], str "git"⟩ (by decide) (by decide)

/-- C6: construction (sorting by path) from any entry list with pairwise-distinct
paths yields a strictly ascending table; construction from any permutation of the
same entries yields the same table, hence identical `find` results for every
query. -/
theorem C6_construction_canonical (l₁ l₂ : PathConfigSet) (hp : List.Perm l₁ l₂)
    (hd : distinctPaths l₁) :
    sortedLt (sortPaths l₁) ∧ sortPaths l₁ = sortPaths l₂ ∧
      ∀ q, find (sortPaths l₁) q = find (sortPaths l₂) q := by
  have he := sortPaths_canonical l₁ l₂ hp hd
  exact ⟨sortPaths_sortedLt l₁ hd, he, fun q => by rw [he]⟩

theorem C6_construction_canonical_witness :
    sortedLt (sortPaths [⟨str "/a/b", str "ry", [], str "git"⟩,
      ⟨str "/a", str "rx", [], str "git"⟩]) ∧
    sortPaths [⟨str "/a/b", str "ry", [], str "git"⟩, ⟨str "/a", str "rx", [], str "git"⟩] =
      sortPaths [⟨str "/a", str "rx", [], str "git"⟩, ⟨str "/a/b", str "ry", [], str "git"⟩] ∧
    ∀ q, find (sortPaths [⟨str "/a/b", str "ry", [], str "git"⟩,
        ⟨str "/a", str "rx", [], str "git"⟩]) q =
      find (sortPaths [⟨str "/a", str "rx", [], str "git"⟩,
        ⟨str "/a/b", str "ry", [], str "git"⟩]) q :=
  C6_construction_canonical
    [⟨str "/a/b", str "ry", [], str "git"⟩, ⟨str "/a", str "rx", [], str "git"⟩]
    [⟨str "/a", str "rx", [], str "git"⟩, ⟨str "/a/b", str "ry", [], str "git"⟩]
    (List.Perm.swap _ _ _) (by decide)

/-- C7: `find` is total — the modelled run-time failures (out-of-bounds index in
the scan, out-of-range slice after the immediate-child check) never fire — and
when no configured path is a leading piece of the query (so neither an exact
match nor a strict-prefix entry exists) it returns `(none, "")`. -/
theorem C7_find_total (pset : PathConfigSet) (q : Str) :
    (∃ res, find pset q = some res) ∧
    ((∀ pc ∈ pset, hasPref q pc.path = false) → find pset q = some (none, [])) :=
  ⟨find_total pset q, find_no_qualify pset q⟩

theorem C7_find_total_witness :
    (∃ res, find [⟨str "/abc", str "r", [], str "git"⟩] (str "/def") = some res) ∧
    find [⟨str "/abc", str "r", [], str "git"⟩] (str "/def") = some (none, []) :=
  ⟨(C7_find_total [⟨str "/abc", str "r", [], str "git"⟩] (str "/def")).1,
   (C7_find_total [⟨str "/abc", str "r", [], str "git"⟩] (str "/def")).2 (by decide)⟩

/-- C8 counterexample: the table entry built from the configured key "/" has the
empty path, not "/" — `strings.TrimSuffix("/", "/")` strips the sole character,
so the root path is not the exception the spec prescribes. -/
theorem C8_counterexample :
    buildPaths [(str "/", ⟨str "r", str "d", str "git"⟩)] [] =
      Except.ok [⟨[], str "r", str "d", str "git"⟩] ∧
    ([] : Str) ≠ str "/" := by
  refine ⟨by decide, by decide⟩

/-- C8 amended: ingestion normalizes every configured key uniformly by stripping
one trailing "/" when present, with no exception for the root: the built entry's
path is `trimSuf key "/"`, the key is recovered by appending "/" exactly when it
ended in one, and in particular the key "/" yields the empty path. -/
theorem C8_normalization (key : Str) (e : VanityPath) (hgood : ¬ badEntry e) :
    ∃ pc, buildPaths [(key, e)] [] = Except.ok [pc] ∧
      pc.path = trimSuf key (str "/") ∧
      ((hasSuf key (str "/") = true ∧ key = pc.path ++ str "/") ∨
        (hasSuf key (str "/") = false ∧ pc.path = key)) := by
  simp only [buildPaths]
  by_cases hv : e.vcs ≠ []
  · rw [if_pos hv]
    by_cases hk : e.vcs = str "bzr" ∨ e.vcs = str "git" ∨ e.vcs = str "hg" ∨ e.vcs = str "svn"
    · rw [if_pos hk]
      refine ⟨_, rfl, rfl, ?_⟩
      rcases trimSuf_spec key (str "/") with ⟨h1, h2⟩ | ⟨h1, h2⟩
      · exact Or.inl ⟨h1, h2⟩
      · exact Or.inr ⟨h1, h2⟩
    · exact absurd (Or.inl ⟨hv, hk⟩) hgood
  · rw [if_neg hv]
    by_cases hg : hasPref e.repo (str "https://github.com/") = true
    · rw [if_pos hg]
      refine ⟨_, rfl, rfl, ?_⟩
      rcases trimSuf_spec key (str "/") with ⟨h1, h2⟩ | ⟨h1, h2⟩
      · exact Or.inl ⟨h1, h2⟩
      · exact Or.inr ⟨h1, h2⟩
    · refine absurd (Or.inr ⟨?_, ?_⟩) hgood
      · by_contra hc
        exact hv hc
      · cases hgg : hasPref e.repo (str "https://github.com/") with
        | false => rfl
        | true => exact absurd hgg hg

theorem C8_normalization_witness :
    (¬ badEntry (⟨str "r", str "d", str "git"⟩ : VanityPath)) ∧
    ∃ pc, buildPaths [(str "/x/", ⟨str "r", str "d", str "git"⟩)] [] = Except.ok [pc] ∧
      pc.path = trimSuf (str "/x/") (str "/") ∧
      ((hasSuf (str "/x/") (str "/") = true ∧ str "/x/" = pc.path ++ str "/") ∨
        (hasSuf (str "/x/") (str "/") = false ∧ pc.path = str "/x/")) :=
  ⟨by decide, C8_normalization (str "/x/") ⟨str "r", str "d", str "git"⟩ (by decide)⟩

theorem mkHandler_error_iff_and_vcs (parsed : VanityConfig) (cacheAge : Int) :
    ((∃ er, mkHandler parsed cacheAge = Except.error er) ↔
      ∃ pe ∈ parsed.paths, badEntry pe.2) ∧
    (∀ h, mkHandler parsed cacheAge = Except.ok h → ∀ pc ∈ h.paths,
      pc.vcs = str "bzr" ∨ pc.vcs = str "git" ∨ pc.vcs = str "hg" ∨ pc.vcs = str "svn") := by
  rcases mkHandler_cases parsed cacheAge with ⟨er, herr, pe, hpe, hbad, _⟩ |
    ⟨pcs, hb, hok, hgood⟩
  · constructor
    · exact ⟨fun _ => ⟨pe, hpe, hbad⟩, fun _ => ⟨er, herr⟩⟩
    · intro h hok
      rw [herr] at hok
      cases hok
  · constructor
    · constructor
      · rintro ⟨er, herr⟩
        rw [hok] at herr
        cases herr
      · rintro ⟨pe, hpe, hbad⟩
        exact absurd hbad (hgood pe hpe)
    · intro h hh
      rw [hok] at hh
      injection hh with hh
      rw [← hh]
      intro pc hpc
      have hpc' : pc ∈ pcs := (sortPaths_perm pcs).mem_iff.1 hpc
      refine buildPaths_vcs_ok parsed.paths [] pcs hb ?_ pc hpc'
      intro pc' hc
      simp at hc

/-- C9: `NewVanityHandler` returns an error (and no handler) exactly when the
document is rejected by the YAML layer, or cache_max_age is negative, or some
entry states a version-control kind outside {bzr, git, hg, svn}, or an entry's
kind is empty and its repo does not start with "https://github.com/"; for every
accepted configuration, every table entry carries a kind in {bzr, git, hg, svn}. -/
theorem C9_error_conditions (cfg : Option VanityConfig) :
    ((∃ er, NewVanityHandler cfg = Except.error er) ↔
      (cfg = none ∨ ∃ parsed, cfg = some parsed ∧
        ((∃ a, parsed.cacheAge = some a ∧ a < 0) ∨ ∃ pe ∈ parsed.paths, badEntry pe.2))) ∧
    (∀ h, NewVanityHandler cfg = Except.ok h → ∀ pc ∈ h.paths,
      pc.vcs = str "bzr" ∨ pc.vcs = str "git" ∨ pc.vcs = str "hg" ∨ pc.vcs = str "svn") := by
  cases cfg with
  | none =>
    constructor
    · exact ⟨fun _ => Or.inl rfl, fun _ => ⟨VErr.invalidConfig, rfl⟩⟩
    · intro h hok
      cases hok
  | some parsed =>
    cases hca : parsed.cacheAge with
    | some a =>
      rw [NewVanityHandler_age parsed a hca]
      by_cases hneg : a < 0
      · rw [if_pos hneg]
        constructor
        · constructor
          · intro _
            exact Or.inr ⟨parsed, rfl, Or.inl ⟨a, hca, hneg⟩⟩
          · intro _
            exact ⟨VErr.cacheMaxAgeNegative, rfl⟩
        · intro h hok
          cases hok
      · rw [if_neg hneg]
        constructor
        · constructor
          · intro he
            exact Or.inr ⟨parsed, rfl, Or.inr ((mkHandler_error_iff_and_vcs parsed a).1.1 he)⟩
          · intro hrhs
            rcases hrhs with hno | ⟨parsed', heqp, hcases⟩
            · cases hno
            · injection heqp with heqp
              subst heqp
              rcases hcases with ⟨a', ha', hlt⟩ | hbad
              · rw [hca] at ha'
                injection ha' with ha'
                subst ha'
                exact absurd hlt hneg
              · exact (mkHandler_error_iff_and_vcs parsed a).1.2 hbad
        · exact (mkHandler_error_iff_and_vcs parsed a).2
    | none =>
      rw [NewVanityHandler_noage parsed hca]
      constructor
      · constructor
        · intro he
          exact Or.inr ⟨parsed, rfl, Or.inr ((mkHandler_error_iff_and_vcs parsed 86400).1.1 he)⟩
        · intro hrhs
          rcases hrhs with hno | ⟨parsed', heqp, hcases⟩
          · cases hno
          · injection heqp with heqp
            subst heqp
            rcases hcases with ⟨a', ha', _⟩ | hbad
            · rw [hca] at ha'
              cases ha'
            · exact (mkHandler_error_iff_and_vcs parsed 86400).1.2 hbad
      · exact (mkHandler_error_iff_and_vcs parsed 86400).2

theorem C9_error_conditions_witness :
    (∃ er, NewVanityHandler (some ⟨str "h", none,
      [(str "/x", ⟨str "r", [], str "cvs"⟩)]⟩) = Except.error er) ∧
    (∀ h, NewVanityHandler (some ⟨str "h", none,
        [(str "/x", ⟨str "https://github.com/a/b", [], []⟩)]⟩) = Except.ok h →
      ∀ pc ∈ h.paths,
        pc.vcs = str "bzr" ∨ pc.vcs = str "git" ∨ pc.vcs = str "hg" ∨ pc.vcs = str "svn") :=
  ⟨(C9_error_conditions (some ⟨str "h", none, [(str "/x", ⟨str "r", [], str "cvs"⟩)]⟩)).1.2
      (Or.inr ⟨_, rfl, Or.inr ⟨(str "/x", ⟨str "r", [], str "cvs"⟩), by decide, by decide⟩⟩),
   (C9_error_conditions (some ⟨str "h", none,
      [(str "/x", ⟨str "https://github.com/a/b", [], []⟩)]⟩)).2⟩

/-- C10: the cache-age check rejects exactly the strictly negative configured
values with `ErrCacheMaxAgeNegative` (so 0 is accepted), whose message
"cache-max-age must be positive" contains the words "must be positive"; an absent
cache_max_age defaults to 86400, and the handler's cache-control string is
"public, max-age=N" for the resulting N. -/
theorem C10_cache_age :
    (∀ parsed : VanityConfig,
      (NewVanityHandler (some parsed) = Except.error VErr.cacheMaxAgeNegative ↔
        ∃ a, parsed.cacheAge = some a ∧ a < 0)) ∧
    (∃ pre post, errMessage VErr.cacheMaxAgeNegative = pre ++ str "must be positive" ++ post) ∧
    (∀ parsed h, parsed.cacheAge = none → NewVanityHandler (some parsed) = Except.ok h →
      h.cachectrl = str "public, max-age=86400") ∧
    (∀ parsed h a, parsed.cacheAge = some a → NewVanityHandler (some parsed) = Except.ok h →
      h.cachectrl = str "public, max-age=" ++ intToStr a) := by
  refine ⟨?_, ⟨str "cache-max-age ", [], by decide⟩, ?_, ?_⟩
  · intro parsed
    cases hca : parsed.cacheAge with
    | some a =>
      rw [NewVanityHandler_age parsed a hca]
      by_cases hneg : a < 0
      · rw [if_pos hneg]
        exact ⟨fun _ => ⟨a, rfl, hneg⟩, fun _ => rfl⟩
      · rw [if_neg hneg]
        constructor
        · intro he
          rcases mkHandler_cases parsed a with ⟨er, herr, _, _, _, p, rp, hshape⟩ |
            ⟨pcs, hb, hok, _⟩
          · rw [herr] at he
            injection he with he
            rw [hshape] at he
            cases he
          · rw [hok] at he
            cases he
        · rintro ⟨a', ha', hlt⟩
          injection ha' with ha'
          subst ha'
          exact absurd hlt hneg
    | none =>
      rw [NewVanityHandler_noage parsed hca]
      constructor
      · intro he
        rcases mkHandler_cases parsed 86400 with ⟨er, herr, _, _, _, p, rp, hshape⟩ |
          ⟨pcs, hb, hok, _⟩
        · rw [herr] at he
          injection he with he
          rw [hshape] at he
          cases he
        · rw [hok] at he
          cases he
      · rintro ⟨a', ha', _⟩
        cases ha'
  · intro parsed h hnone hok
    rw [NewVanityHandler_noage parsed hnone] at hok
    rcases mkHandler_cases parsed 86400 with ⟨er, herr, _⟩ | ⟨pcs, hb, hokk, _⟩
    · rw [herr] at hok
      cases hok
    · rw [hokk] at hok
      injection hok with hok
      rw [← hok]
      show str "public, max-age=" ++ intToStr 86400 = str "public, max-age=86400"
      decide
  · intro parsed h a hsome hok
    rw [NewVanityHandler_age parsed a hsome] at hok
    by_cases hneg : a < 0
    · rw [if_pos hneg] at hok
      cases hok
    · rw [if_neg hneg] at hok
      rcases mkHandler_cases parsed a with ⟨er, herr, _⟩ | ⟨pcs, hb, hokk, _⟩
      · rw [herr] at hok
        cases hok
      · rw [hokk] at hok
        injection hok with hok
        rw [← hok]

theorem C10_cache_age_witness :
    NewVanityHandler (some ⟨str "h", some (-1), []⟩) =
      Except.error VErr.cacheMaxAgeNegative ∧
    (∃ pre post, errMessage VErr.cacheMaxAgeNegative = pre ++ str "must be positive" ++ post) ∧
    (⟨str "h", [], str "public, max-age=86400"⟩ : VanityHandler).cachectrl =
      str "public, max-age=86400" ∧
    (⟨str "h", [], str "public, max-age=0"⟩ : VanityHandler).cachectrl =
      str "public, max-age=" ++ intToStr 0 :=
  ⟨(C10_cache_age.1 ⟨str "h", some (-1), []⟩).2 ⟨-1, rfl, by decide⟩,
   C10_cache_age.2.1,
   C10_cache_age.2.2.1 ⟨str "h", none, []⟩ ⟨str "h", [], str "public, max-age=86400"⟩
     rfl (by decide),
   C10_cache_age.2.2.2 ⟨str "h", some 0, []⟩ ⟨str "h", [], str "public, max-age=0"⟩ 0
     rfl (by decide)⟩
